import Mathlib

/-!
Shallow embedding of `src/PythonAPI/examples/coop_v2x/intersection_manager.py`
(classes `VehicleState` and `IntersectionManager`), a FCFS admission-control
scheduler for an intersection conflict zone.

Modelling choices:
* Python floats (timestamps, distances, coordinates) are modelled as `ℚ`;
  every comparison in the code is an order comparison, exactly represented.
* The Python dict `self._states` (insertion-ordered, as guaranteed by
  Python ≥ 3.7) is modelled as an association list `List (Nat × VehicleState)`
  with new entries appended at the end, and removal preserving order.
* A snapshot element (`VehicleAgent`) is modelled by the data the manager
  reads from it: its id, its x/y location, and the result of its
  `distance_to(center)` call.
* In the Python `update`, the local variable `dist` is assigned inside the
  first ("register arrivals") loop and then read, without reassignment,
  inside the third ("clear exiting vehicles") loop: at that point it holds
  the distance of the LAST agent of the snapshot.  The embedding reproduces
  this faithfully via `staleDist`.
-/

/-- Mirror of the Python dataclass `VehicleState`. -/
structure VehicleState where
  vehicle_id : Nat
  arrival_time : ℚ
  in_box : Bool
  cleared : Bool
  permission_time : Option ℚ
  enter_time : Option ℚ
  exit_time : Option ℚ
  exported : Bool
deriving Repr, DecidableEq

/-- A fresh record as created by `VehicleState(vehicle_id=vid, arrival_time=timestamp)`:
all other dataclass fields take their declared defaults. -/
def VehicleState.mkNew (vid : Nat) (t : ℚ) : VehicleState :=
  { vehicle_id := vid, arrival_time := t, in_box := false, cleared := false,
    permission_time := none, enter_time := none, exit_time := none, exported := false }

/-- What the manager reads from one `VehicleAgent` of the snapshot: its
`vehicle.id`, its location (x, y; z is never read), and the value returned by
`agent.distance_to(self.center)`. -/
structure Agent where
  id : Nat
  locX : ℚ
  locY : ℚ
  dist : ℚ
deriving Repr, DecidableEq

/-- Mirror of the `IntersectionManager` object state. -/
structure Manager where
  centerX : ℚ
  centerY : ℚ
  approach_radius : ℚ
  box_half_extent : ℚ
  states : List (Nat × VehicleState)
  active_ids : List Nat
  max_active : Int
deriving Repr, DecidableEq

/-- `self._states.get(vid)`. -/
def lookupState (states : List (Nat × VehicleState)) (vid : Nat) : Option VehicleState :=
  (states.find? (fun p => p.1 = vid)).map Prod.snd

/-- In-place mutation of the record stored under `vid` (Python mutates the
dataclass object held in the dict). -/
def setState (states : List (Nat × VehicleState)) (vid : Nat)
    (f : VehicleState → VehicleState) : List (Nat × VehicleState) :=
  states.map (fun p => if p.1 = vid then (p.1, f p.2) else p)

/-- `IntersectionManager.__init__`: stores the configuration and enforces
`self._max_active = max(1, max_active)`. -/
def mkManager (cx cy approach_radius box_half_extent : ℚ) (max_active : Int) : Manager :=
  { centerX := cx, centerY := cy, approach_radius := approach_radius,
    box_half_extent := box_half_extent, states := [], active_ids := [],
    max_active := max 1 max_active }

/-- `IntersectionManager._is_in_box`: axis-aligned containment on x and y. -/
def isInBox (m : Manager) (x y : ℚ) : Bool :=
  |x - m.centerX| ≤ m.box_half_extent ∧ |y - m.centerY| ≤ m.box_half_extent

/-- First loop of `update` ("Register arrivals"): create a record for every
snapshot agent within the approach radius that has none yet. -/
def registerArrivals (m : Manager) (agents : List Agent) (t : ℚ) : Manager :=
  agents.foldl
    (fun m a =>
      match lookupState m.states a.id with
      | some _ => m
      | none =>
          if a.dist ≤ m.approach_radius then
            { m with states := m.states ++ [(a.id, VehicleState.mkNew a.id t)] }
          else m)
    m

/-- Second phase of `update` ("Drop cleared/removed vehicles"): collect the
tracked ids absent from the snapshot, then pop each and erase its first
occurrence from the active list (`list.remove` removes the first occurrence;
the `if vid in self._active_ids` guard makes absence a no-op, as does
`List.erase`). -/
def deadIds (m : Manager) (agents : List Agent) : List Nat :=
  (m.states.map Prod.fst).filter (fun vid => ¬ agents.any (fun a => a.id = vid))

def evictMissing (m : Manager) (agents : List Agent) : Manager :=
  (deadIds m agents).foldl
    (fun m vid =>
      { m with states := m.states.filter (fun p => p.1 ≠ vid),
               active_ids := m.active_ids.erase vid })
    m

/-- The box-entry transition of the third loop of `update`:
`state.in_box = True`, and `state.enter_time = timestamp` if unset. -/
def enterRec (t : ℚ) (st : VehicleState) : VehicleState :=
  { st with in_box := true,
            enter_time := if st.enter_time = none then some t else st.enter_time }

/-- The clearance transition of the third loop: `state.cleared = True`, and
`state.exit_time = timestamp` if unset. -/
def clearRec (t : ℚ) (st : VehicleState) : VehicleState :=
  { st with cleared := true,
            exit_time := if st.exit_time = none then some t else st.exit_time }

/-- Body of one iteration of the third loop of `update` ("Update in_box flags
and clear exiting vehicles") for agent `a`.  `staleDist` is the value the
Python local `dist` holds throughout this loop: the distance of the last
snapshot agent, assigned in the registration loop. -/
def clearOne (m : Manager) (a : Agent) (t staleDist : ℚ) : Manager :=
  match lookupState m.states a.id with
  | none => m
  | some st =>
      let in_box := isInBox m a.locX a.locY
      let st1 := if in_box && !st.in_box then enterRec t st else st
      if st1.in_box && !in_box && staleDist > m.approach_radius * (3/4) then
        { m with states := setState m.states a.id (fun _ => clearRec t st1),
                 active_ids := m.active_ids.erase a.id }
      else
        { m with states := setState m.states a.id (fun _ => st1) }

/-- Third loop of `update`, folded over the snapshot in order. -/
def clearStep (m : Manager) (agents : List Agent) (t staleDist : ℚ) : Manager :=
  agents.foldl (fun m a => clearOne m a t staleDist) m

/-- Stable insertion of `x` into a list sorted by the second component:
`x` is placed before the first element whose key is ≥ its own. -/
def insertByArrival (x : Nat × ℚ) : List (Nat × ℚ) → List (Nat × ℚ)
  | [] => [x]
  | y :: ys => if x.2 ≤ y.2 then x :: y :: ys else y :: insertByArrival x ys

/-- Stable sort by the second component (insertion sort).  Python's
`waiting.sort(key=lambda item: item[1])` is a stable sort by that key, and
every stable sort by a key computes the same output list, so this is the
function the source computes. -/
def sortByArrival : List (Nat × ℚ) → List (Nat × ℚ)
  | [] => []
  | x :: xs => insertByArrival x (sortByArrival xs)

/-- The waiting list built in `update`: `(vid, arrival_time)` for every tracked
record that is not cleared and not already active, in dict insertion order,
then sorted by arrival time with Python's stable `list.sort`. -/
def sortedWaiting (m : Manager) : List (Nat × ℚ) :=
  sortByArrival
    ((m.states.filter (fun p => !p.2.cleared && !(m.active_ids.contains p.1))).map
      (fun p => (p.1, p.2.arrival_time)))

/-- The admission `for` loop of `update`: `break` once the active list has
reached `max_active`, otherwise append the id and stamp `permission_time`
if unset. -/
def admitLoop (m : Manager) (t : ℚ) : List (Nat × ℚ) → Manager
  | [] => m
  | (vid, _) :: rest =>
      if (m.active_ids.length : Int) ≥ m.max_active then m
      else
        let m1 := { m with active_ids := m.active_ids ++ [vid] }
        let m2 :=
          match lookupState m1.states vid with
          | some st =>
              if st.permission_time = none then
                let states2 := setState m1.states vid
                  (fun s => { s with permission_time := some t })
                { m1 with states := states2 }
              else m1
          | none => m1
        admitLoop m2 t rest

/-- Fourth phase of `update` ("Assign permissions up to the allowed active
count"). -/
def assignPermissions (m : Manager) (t : ℚ) : Manager :=
  admitLoop m t (sortedWaiting m)

/-- The value the Python local `dist` holds after the registration loop: the
distance of the last snapshot agent (never read when the snapshot is empty,
since the third loop then has no iterations; 0 is an arbitrary placeholder). -/
def staleDist (agents : List Agent) : ℚ :=
  match agents.getLast? with
  | some a => a.dist
  | none => 0

/-- `IntersectionManager.update(agents, timestamp)`. -/
def update (m : Manager) (agents : List Agent) (t : ℚ) : Manager :=
  let m1 := registerArrivals m agents t
  let m2 := evictMissing m1 agents
  let m3 := clearStep m2 agents t (staleDist agents)
  assignPermissions m3 t

/-- `IntersectionManager.current_permissions`: `{vid: True for vid in active_ids}`. -/
def currentPermissions (m : Manager) : List (Nat × Bool) :=
  m.active_ids.map (fun vid => (vid, true))

/-- `IntersectionManager.poll_completed`: returns the records with
`cleared ∧ ¬exported` in tracking order and marks each `exported := true`.
(The Python loop mutates each appended record right after appending it;
since dict keys are distinct this equals the two-pass form below.) -/
def pollCompleted (m : Manager) : List VehicleState × Manager :=
  (((m.states.filter (fun p => p.2.cleared && !p.2.exported)).map Prod.snd),
   { m with states := m.states.map (fun p =>
       if p.2.cleared && !p.2.exported then (p.1, { p.2 with exported := true }) else p) })

/-- One external call to the scheduler, as made by the driving loop. -/
inductive Op where
  | upd (agents : List Agent) (t : ℚ)
  | poll
  | perms
deriving Repr, DecidableEq

/-- Effect of one external call on the manager state (`current_permissions`
reads but never writes). -/
def applyOp (m : Manager) : Op → Manager
  | Op.upd agents t => update m agents t
  | Op.poll => (pollCompleted m).2
  | Op.perms => m

/-- A reachable state: the manager after a sequence of external calls starting
from construction. -/
def run (m : Manager) (ops : List Op) : Manager :=
  ops.foldl applyOp m

/-!  Generic facts about the association-list primitives. -/

/-- Fields of a record only evolve monotonically across scheduler phases:
booleans only flip to `true`, the optional timestamps are set at most once,
and `vehicle_id`/`arrival_time` never change. -/
def stEv (st st' : VehicleState) : Prop :=
  st'.vehicle_id = st.vehicle_id ∧
  st'.arrival_time = st.arrival_time ∧
  (st.in_box = true → st'.in_box = true) ∧
  (st.cleared = true → st'.cleared = true) ∧
  (∀ q, st.permission_time = some q → st'.permission_time = some q) ∧
  (∀ q, st.enter_time = some q → st'.enter_time = some q) ∧
  (∀ q, st.exit_time = some q → st'.exit_time = some q) ∧
  (st.exported = true → st'.exported = true)

theorem stEv_refl (st : VehicleState) : stEv st st := by
  refine ⟨rfl, rfl, ?_, ?_, ?_, ?_, ?_, ?_⟩ <;> intros <;> assumption

theorem stEv_trans {a b c : VehicleState} (h1 : stEv a b) (h2 : stEv b c) : stEv a c := by
  obtain ⟨i1, i2, i3, i4, i5, i6, i7, i8⟩ := h1
  obtain ⟨j1, j2, j3, j4, j5, j6, j7, j8⟩ := h2
  exact ⟨j1.trans i1, j2.trans i2, fun h => j3 (i3 h), fun h => j4 (i4 h),
    fun q h => j5 q (i5 q h), fun q h => j6 q (i6 q h), fun q h => j7 q (i7 q h),
    fun h => j8 (i8 h)⟩

theorem lookup_eq_none_iff (s : List (Nat × VehicleState)) (vid : Nat) :
    lookupState s vid = none ↔ vid ∉ s.map Prod.fst := by
  induction s with
  | nil => simp [lookupState]
  | cons p rest ih =>
      by_cases h : p.1 = vid
      · simp [lookupState, List.find?, h]
      · simp only [lookupState, List.find?, decide_eq_true_eq] at ih ⊢
        simp [h, ih, Ne.symm h]

theorem lookup_mem {s : List (Nat × VehicleState)} {vid : Nat} {st : VehicleState}
    (h : lookupState s vid = some st) : (vid, st) ∈ s := by
  unfold lookupState at h
  cases hf : s.find? (fun p => p.1 = vid) with
  | none => simp [hf] at h
  | some p =>
      simp only [hf, Option.map_some] at h
      have hp : p.1 = vid := by simpa using List.find?_some hf
      have hm := List.mem_of_find?_eq_some hf
      have : p = (vid, st) := by
        cases p; simp_all
      rwa [this] at hm

theorem lookup_append (s t : List (Nat × VehicleState)) (vid : Nat) :
    lookupState (s ++ t) vid = ((lookupState s vid).or (lookupState t vid)) := by
  induction s with
  | nil => simp [lookupState]
  | cons p rest ih =>
      by_cases h : p.1 = vid
      · simp [lookupState, List.find?, h]
      · simpa [lookupState, List.find?, h] using ih

theorem lookupState_cons (a : Nat) (b : VehicleState) (rest : List (Nat × VehicleState))
    (vid : Nat) :
    lookupState ((a, b) :: rest) vid = if a = vid then some b else lookupState rest vid := by
  by_cases h : a = vid <;> simp [lookupState, List.find?, h]

theorem setState_cons (a : Nat) (b : VehicleState) (rest : List (Nat × VehicleState))
    (k : Nat) (f : VehicleState → VehicleState) :
    setState ((a, b) :: rest) k f =
      (if a = k then (a, f b) else (a, b)) :: setState rest k f := by
  by_cases h : a = k <;> simp [setState, h]

theorem lookup_setState (s : List (Nat × VehicleState)) (k vid : Nat)
    (f : VehicleState → VehicleState) :
    lookupState (setState s k f) vid =
      if vid = k then (lookupState s vid).map f else lookupState s vid := by
  induction s with
  | nil => simp [lookupState, setState]
  | cons p rest ih =>
      obtain ⟨a, b⟩ := p
      rw [setState_cons]
      by_cases hak : a = k
      · subst hak
        by_cases hav : a = vid
        · subst hav
          simp [lookupState_cons]
        · have hva : ¬ vid = a := fun h => hav h.symm
          simp [lookupState_cons, hav, hva, ih]
      · by_cases hav : a = vid
        · subst hav
          simp [lookupState_cons, hak]
        · simp [lookupState_cons, hak, hav, ih]

theorem keys_setState (s : List (Nat × VehicleState)) (k : Nat)
    (f : VehicleState → VehicleState) :
    (setState s k f).map Prod.fst = s.map Prod.fst := by
  induction s with
  | nil => rfl
  | cons p rest ih =>
      obtain ⟨a, b⟩ := p
      rw [setState_cons]
      by_cases hak : a = k <;> simp [hak, ih]

theorem mem_setState {s : List (Nat × VehicleState)} {k : Nat}
    {f : VehicleState → VehicleState} {p : Nat × VehicleState}
    (h : p ∈ setState s k f) : p ∈ s ∨ ∃ q ∈ s, q.1 = k ∧ p = (q.1, f q.2) := by
  unfold setState at h
  obtain ⟨q, hq, hpq⟩ := List.mem_map.mp h
  by_cases hqk : q.1 = k
  · right
    refine ⟨q, hq, hqk, ?_⟩
    simp [hqk] at hpq
    rw [hqk]
    exact hpq.symm
  · left
    simp [hqk] at hpq
    exact hpq ▸ hq

theorem lookup_filter_key (s : List (Nat × VehicleState)) (q : Nat → Bool) (vid : Nat) :
    lookupState (s.filter (fun p => q p.1)) vid =
      if q vid then lookupState s vid else none := by
  induction s with
  | nil => simp [lookupState]
  | cons p rest ih =>
      obtain ⟨a, b⟩ := p
      rw [List.filter_cons]
      by_cases hav : a = vid
      · subst hav
        cases hq : q a
        · simp [hq, ih]
        · simp [hq, lookupState_cons]
      · cases hq : q a
        · simp only [hq, Bool.false_eq_true, if_neg, not_false_iff]
          rw [ih, lookupState_cons]
          simp [hav]
        · simp only [hq, if_pos]
          rw [lookupState_cons, lookupState_cons, ih]
          simp [hav]

/-!  Invariants of the scheduler state. -/

/-- Structural facts about a single record that every scheduler phase
preserves: containment implies a recorded entry time, clearance implies prior
containment, and an exit time implies clearance. -/
abbrev stStruct (st : VehicleState) : Prop :=
  (st.in_box = true → st.enter_time.isSome = true) ∧
  (st.cleared = true → st.in_box = true) ∧
  (st.exit_time.isSome = true → st.cleared = true)

/-- The tracked map has no duplicate keys. -/
abbrev keysOK (m : Manager) : Prop := (m.states.map Prod.fst).Nodup

/-- The active list has no duplicates and every active id is tracked with a
non-cleared record. -/
abbrev activeOK (m : Manager) : Prop :=
  m.active_ids.Nodup ∧
  ∀ vid ∈ m.active_ids, ∃ st, lookupState m.states vid = some st ∧ st.cleared = false

/-- The active list respects the concurrency limit, which is at least 1. -/
abbrev lenOK (m : Manager) : Prop :=
  (m.active_ids.length : Int) ≤ m.max_active ∧ 1 ≤ m.max_active

/-- Every tracked record satisfies the per-record structural facts. -/
abbrev recsOK (m : Manager) : Prop := ∀ p ∈ m.states, stStruct p.2

/-- The scheduler invariant maintained by every external call. -/
abbrev MgrInv (m : Manager) : Prop := keysOK m ∧ activeOK m ∧ lenOK m ∧ recsOK m

/-- Time-ordering facts about a record, relative to an upper bound `T` on all
timestamps seen so far. -/
abbrev stTimes (st : VehicleState) (T : ℚ) : Prop :=
  st.arrival_time ≤ T ∧
  (∀ q, st.permission_time = some q → st.arrival_time ≤ q ∧ q ≤ T) ∧
  (∀ q, st.enter_time = some q → st.arrival_time ≤ q ∧ q ≤ T) ∧
  (∀ q, st.exit_time = some q → q ≤ T ∧
    (∀ e, st.enter_time = some e → e ≤ q) ∧
    (∀ p, st.permission_time = some p → p ≤ q))

abbrev timesOK (m : Manager) (T : ℚ) : Prop := ∀ p ∈ m.states, stTimes p.2 T

theorem stTimes_mono {st : VehicleState} {T T' : ℚ} (h : stTimes st T) (hTT : T ≤ T') :
    stTimes st T' := by
  obtain ⟨h1, h2, h3, h4⟩ := h
  refine ⟨h1.trans hTT, fun q hq => ⟨(h2 q hq).1, (h2 q hq).2.trans hTT⟩,
    fun q hq => ⟨(h3 q hq).1, (h3 q hq).2.trans hTT⟩,
    fun q hq => ⟨(h4 q hq).1.trans hTT, (h4 q hq).2.1, (h4 q hq).2.2⟩⟩

/-!  Phase 1: `registerArrivals`. -/

theorem register_nil (m : Manager) (t : ℚ) : registerArrivals m [] t = m := rfl

theorem register_cons (m : Manager) (a : Agent) (rest : List Agent) (t : ℚ) :
    registerArrivals m (a :: rest) t =
      registerArrivals
        (match lookupState m.states a.id with
         | some _ => m
         | none =>
             if a.dist ≤ m.approach_radius then
               { m with states := m.states ++ [(a.id, VehicleState.mkNew a.id t)] }
             else m)
        rest t := rfl

theorem register_active (m : Manager) (agents : List Agent) (t : ℚ) :
    (registerArrivals m agents t).active_ids = m.active_ids := by
  induction agents generalizing m with
  | nil => rfl
  | cons a rest ih =>
      rw [register_cons]
      cases h : lookupState m.states a.id with
      | some st => simpa [h] using ih m
      | none =>
          by_cases hd : a.dist ≤ m.approach_radius <;> simp [h, hd] <;> exact ih _

theorem register_max (m : Manager) (agents : List Agent) (t : ℚ) :
    (registerArrivals m agents t).max_active = m.max_active := by
  induction agents generalizing m with
  | nil => rfl
  | cons a rest ih =>
      rw [register_cons]
      cases h : lookupState m.states a.id with
      | some st => simpa [h] using ih m
      | none =>
          by_cases hd : a.dist ≤ m.approach_radius <;> simp [h, hd] <;> exact ih _

theorem register_lookup_some (m : Manager) (agents : List Agent) (t : ℚ) (vid : Nat)
    (st : VehicleState) (h : lookupState m.states vid = some st) :
    lookupState (registerArrivals m agents t).states vid = some st := by
  induction agents generalizing m with
  | nil => exact h
  | cons a rest ih =>
      rw [register_cons]
      cases hl : lookupState m.states a.id with
      | some st' => simpa [hl] using ih m h
      | none =>
          by_cases hd : a.dist ≤ m.approach_radius
          · simp only [hl, hd, if_pos]
            refine ih _ ?_
            rw [lookup_append, h]
            rfl
          · simpa [hl, hd] using ih m h

theorem register_mem (m : Manager) (agents : List Agent) (t : ℚ) :
    ∀ p ∈ (registerArrivals m agents t).states,
      p ∈ m.states ∨ p.2 = VehicleState.mkNew p.1 t := by
  induction agents generalizing m with
  | nil => exact fun p hp => Or.inl hp
  | cons a rest ih =>
      rw [register_cons]
      cases hl : lookupState m.states a.id with
      | some st' =>
          intro p hp
          simpa [hl] using ih m p (by simpa [hl] using hp)
      | none =>
          by_cases hd : a.dist ≤ m.approach_radius
          · simp only [hl, hd, if_pos]
            intro p hp
            rcases ih _ p hp with hmem | hnew
            · rcases List.mem_append.mp hmem with h1 | h2
              · exact Or.inl h1
              · right
                have : p = (a.id, VehicleState.mkNew a.id t) := by simpa using h2
                rw [this]
            · exact Or.inr hnew
          · intro p hp
            simpa [hl, hd] using ih m p (by simpa [hl, hd] using hp)

theorem register_keysOK (m : Manager) (agents : List Agent) (t : ℚ) (h : keysOK m) :
    keysOK (registerArrivals m agents t) := by
  induction agents generalizing m with
  | nil => exact h
  | cons a rest ih =>
      rw [register_cons]
      cases hl : lookupState m.states a.id with
      | some st' => simpa [hl] using ih m h
      | none =>
          by_cases hd : a.dist ≤ m.approach_radius
          · simp only [hl, hd, if_pos]
            refine ih _ ?_
            have hk : a.id ∉ m.states.map Prod.fst := (lookup_eq_none_iff _ _).mp hl
            unfold keysOK at h ⊢
            simpa [List.nodup_append, h] using hk
          · simpa [hl, hd] using ih m h

/-!  Phase 2: `evictMissing`. -/

theorem lookup_filter_ne (s : List (Nat × VehicleState)) (i vid : Nat) :
    lookupState (s.filter (fun p => p.1 ≠ i)) vid =
      if vid = i then none else lookupState s vid := by
  induction s with
  | nil => simp [lookupState]
  | cons p rest ih =>
      obtain ⟨a, b⟩ := p
      rw [List.filter_cons]
      by_cases hai : a = i
      · subst hai
        rw [if_neg (by simp), ih]
        by_cases hvi : vid = a
        · simp [hvi]
        · have hav : ¬ a = vid := fun h => hvi h.symm
          simp [hvi, lookupState_cons, hav]
      · rw [if_pos (by simp [hai]), lookupState_cons, ih, lookupState_cons]
        by_cases hav : a = vid
        · subst hav
          simp [hai]
        · simp [hav]

theorem evictFold_lookup (ids : List Nat) (m : Manager) (vid : Nat) :
    lookupState ((ids.foldl (fun m vid =>
        { m with states := m.states.filter (fun p => p.1 ≠ vid),
                 active_ids := m.active_ids.erase vid }) m)).states vid =
      if vid ∈ ids then none else lookupState m.states vid := by
  induction ids generalizing m with
  | nil => simp
  | cons i rest ih =>
      rw [List.foldl_cons, ih]
      show (if vid ∈ rest then none
        else lookupState (m.states.filter (fun p => p.1 ≠ i)) vid) = _
      rw [lookup_filter_ne]
      by_cases hvi : vid = i <;> by_cases hv : vid ∈ rest <;> simp [hvi, hv]

theorem evictFold_active (ids : List Nat) (m : Manager) (h : m.active_ids.Nodup) :
    (ids.foldl (fun m vid =>
        { m with states := m.states.filter (fun p => p.1 ≠ vid),
                 active_ids := m.active_ids.erase vid }) m).active_ids =
      m.active_ids.filter (fun v => decide (v ∉ ids)) := by
  induction ids generalizing m with
  | nil => simp
  | cons i rest ih =>
      rw [List.foldl_cons]
      have herase : m.active_ids.erase i = m.active_ids.filter (fun v => v != i) :=
        h.erase_eq_filter i
      have hnd : (m.active_ids.erase i).Nodup := h.erase i
      rw [ih _ hnd]
      show (m.active_ids.erase i).filter _ = _
      rw [herase, List.filter_filter]
      refine List.filter_congr ?_
      intro x _
      by_cases h1 : x = i <;> by_cases h2 : x ∈ rest <;> simp [h1, h2]

theorem evictFold_max (ids : List Nat) (m : Manager) :
    (ids.foldl (fun m vid =>
        { m with states := m.states.filter (fun p => p.1 ≠ vid),
                 active_ids := m.active_ids.erase vid }) m).max_active = m.max_active := by
  induction ids generalizing m with
  | nil => rfl
  | cons i rest ih => rw [List.foldl_cons]; exact ih _

theorem evictFold_states_sub (ids : List Nat) (m : Manager) :
    ∀ p ∈ (ids.foldl (fun m vid =>
        { m with states := m.states.filter (fun p => p.1 ≠ vid),
                 active_ids := m.active_ids.erase vid }) m).states, p ∈ m.states := by
  induction ids generalizing m with
  | nil => exact fun p hp => hp
  | cons i rest ih =>
      rw [List.foldl_cons]
      intro p hp
      exact List.mem_of_mem_filter (ih _ p hp)

theorem evictFold_keys_sub (ids : List Nat) (m : Manager) :
    ((ids.foldl (fun m vid =>
        { m with states := m.states.filter (fun p => p.1 ≠ vid),
                 active_ids := m.active_ids.erase vid }) m)).states.map Prod.fst
      |>.Sublist (m.states.map Prod.fst) := by
  induction ids generalizing m with
  | nil => exact List.Sublist.refl _
  | cons i rest ih =>
      rw [List.foldl_cons]
      exact (ih _).trans ((List.filter_sublist _).map Prod.fst)

theorem evict_lookup (m : Manager) (agents : List Agent) (vid : Nat) :
    lookupState (evictMissing m agents).states vid =
      if agents.any (fun a => a.id = vid) then lookupState m.states vid else none := by
  unfold evictMissing
  rw [evictFold_lookup]
  by_cases hin : vid ∈ deadIds m agents
  · have : ¬ agents.any (fun a => a.id = vid) = true := by
      have := (List.mem_filter.mp hin).2
      simpa using this
    simp [hin, this]
  · by_cases hany : agents.any (fun a => a.id = vid)
    · simp [hin, hany]
    · have hkeys : vid ∉ m.states.map Prod.fst := by
        intro hk
        exact hin (List.mem_filter.mpr ⟨hk, by simpa using hany⟩)
      simp [hin, hany, (lookup_eq_none_iff _ _).mpr hkeys]

theorem evict_active (m : Manager) (agents : List Agent) (h : m.active_ids.Nodup) :
    (evictMissing m agents).active_ids =
      m.active_ids.filter (fun v => decide (v ∉ deadIds m agents)) :=
  evictFold_active _ _ h

theorem evict_max (m : Manager) (agents : List Agent) :
    (evictMissing m agents).max_active = m.max_active :=
  evictFold_max _ _

theorem evict_states_sub (m : Manager) (agents : List Agent) :
    ∀ p ∈ (evictMissing m agents).states, p ∈ m.states :=
  evictFold_states_sub _ _

theorem evict_keysOK (m : Manager) (agents : List Agent) (h : keysOK m) :
    keysOK (evictMissing m agents) :=
  h.sublist (evictFold_keys_sub _ _)

/-!  Phase 3: `clearStep`. -/

theorem enterRec_ev (t : ℚ) (st : VehicleState) : stEv st (enterRec t st) := by
  refine ⟨rfl, rfl, fun _ => rfl, fun h => h, fun q hq => hq, fun q hq => ?_,
    fun q hq => hq, fun h => h⟩
  simp [enterRec, hq]

theorem clearRec_ev (t : ℚ) (st : VehicleState) : stEv st (clearRec t st) := by
  refine ⟨rfl, rfl, fun h => h, fun _ => rfl, fun q hq => hq, fun q hq => hq,
    fun q hq => ?_, fun h => h⟩
  simp [clearRec, hq]

theorem enterRec_struct {st : VehicleState} (t : ℚ) (hS : stStruct st) :
    stStruct (enterRec t st) := by
  refine ⟨fun _ => ?_, fun _ => rfl, fun h => hS.2.2 h⟩
  cases h : st.enter_time <;> simp [enterRec, h]

theorem clearRec_struct {st : VehicleState} (t : ℚ) (hbox : st.in_box = true)
    (hS : stStruct st) : stStruct (clearRec t st) := by
  exact ⟨fun h => hS.1 h, fun _ => hbox, fun _ => rfl⟩

theorem enterRec_times {st : VehicleState} {t : ℚ} (hS : stStruct st) (hT : stTimes st t) :
    stTimes (enterRec t st) t := by
  obtain ⟨h1, h2, h3, h4⟩ := hT
  refine ⟨h1, h2, ?_, ?_⟩
  · intro q hq
    cases he : st.enter_time with
    | none =>
        simp [enterRec, he] at hq
        exact hq ▸ ⟨h1, le_refl t⟩
    | some e =>
        simp [enterRec, he] at hq
        exact hq ▸ h3 e he
  · intro q hq
    have hq0 : st.exit_time = some q := hq
    have hcl : st.cleared = true := hS.2.2 (by simp [hq0])
    have hbox : st.in_box = true := hS.2.1 hcl
    have hent : st.enter_time.isSome = true := hS.1 hbox
    obtain ⟨e0, he0⟩ := Option.isSome_iff_exists.mp hent
    refine ⟨(h4 q hq0).1, ?_, (h4 q hq0).2.2⟩
    intro e he
    simp [enterRec, he0] at he
    exact he ▸ (h4 q hq0).2.1 e0 he0

theorem clearRec_times {st : VehicleState} {t : ℚ} (hT : stTimes st t) :
    stTimes (clearRec t st) t := by
  obtain ⟨h1, h2, h3, h4⟩ := hT
  refine ⟨h1, h2, h3, ?_⟩
  intro q hq
  cases hx : st.exit_time with
  | none =>
      simp [clearRec, hx] at hq
      subst hq
      exact ⟨le_refl t, fun e he => (h3 e he).2, fun p hp => (h2 p hp).2⟩
  | some x =>
      simp [clearRec, hx] at hq
      exact hq ▸ h4 x hx

theorem clearOne_max (m : Manager) (a : Agent) (t d : ℚ) :
    (clearOne m a t d).max_active = m.max_active := by
  unfold clearOne
  cases hl : lookupState m.states a.id with
  | none => rfl
  | some st => dsimp only; split <;> split <;> rfl

theorem clearOne_keys (m : Manager) (a : Agent) (t d : ℚ) :
    (clearOne m a t d).states.map Prod.fst = m.states.map Prod.fst := by
  unfold clearOne
  cases hl : lookupState m.states a.id with
  | none => rfl
  | some st => dsimp only; split <;> split <;> simp [keys_setState]

theorem clearOne_lookup_ne (m : Manager) (a : Agent) (t d : ℚ) (vid : Nat)
    (hne : ¬ vid = a.id) :
    lookupState (clearOne m a t d).states vid = lookupState m.states vid := by
  unfold clearOne
  cases hl : lookupState m.states a.id with
  | none => rfl
  | some st => dsimp only; split <;> split <;> simp [lookup_setState, hne]

theorem clearOne_active_cases (m : Manager) (a : Agent) (t d : ℚ) :
    (clearOne m a t d).active_ids = m.active_ids ∨
    (clearOne m a t d).active_ids = m.active_ids.erase a.id := by
  unfold clearOne
  cases hl : lookupState m.states a.id with
  | none => exact Or.inl rfl
  | some st =>
      dsimp only
      split <;> split
      · exact Or.inr rfl
      · exact Or.inl rfl
      · exact Or.inr rfl
      · exact Or.inl rfl

theorem clearOne_ev (m : Manager) (a : Agent) (t d : ℚ) (vid : Nat) (st : VehicleState)
    (h : lookupState m.states vid = some st) :
    ∃ st', lookupState (clearOne m a t d).states vid = some st' ∧ stEv st st' := by
  by_cases hva : vid = a.id
  · subst hva
    unfold clearOne
    rw [h]
    dsimp only
    split <;> split
    · exact ⟨_, by simp [lookup_setState, h], stEv_trans (enterRec_ev t st) (clearRec_ev t _)⟩
    · exact ⟨_, by simp [lookup_setState, h], enterRec_ev t st⟩
    · exact ⟨_, by simp [lookup_setState, h], clearRec_ev t st⟩
    · exact ⟨_, by simp [lookup_setState, h], stEv_refl st⟩
  · exact ⟨st, (clearOne_lookup_ne m a t d vid hva).trans h, stEv_refl st⟩

theorem setState_forall {P : VehicleState → Prop} {s : List (Nat × VehicleState)} {k : Nat}
    {f : VehicleState → VehicleState}
    (h : ∀ p ∈ s, P p.2) (hf : ∀ p ∈ s, p.1 = k → P (f p.2)) :
    ∀ p ∈ setState s k f, P p.2 := by
  intro p hp
  rcases mem_setState hp with h1 | ⟨q, hq, hqk, hpe⟩
  · exact h _ h1
  · rw [hpe]
    exact hf q hq hqk

theorem clearOne_recsOK (m : Manager) (a : Agent) (t d : ℚ) (h : recsOK m) :
    recsOK (clearOne m a t d) := by
  unfold clearOne
  cases hl : lookupState m.states a.id with
  | none => exact h
  | some st =>
      have hstS : stStruct st := h _ (lookup_mem hl)
      dsimp only
      split <;> split
      all_goals intro p hp
      all_goals dsimp only at hp
      · refine setState_forall h ?_ p hp
        intro q hq hqk
        exact clearRec_struct t rfl (enterRec_struct t hstS)
      · refine setState_forall h ?_ p hp
        intro q hq hqk
        exact enterRec_struct t hstS
      · next hcond =>
          have hbox : st.in_box = true := by
            simp only [Bool.and_eq_true] at hcond
            exact hcond.1.1
          refine setState_forall h ?_ p hp
          intro q hq hqk
          exact clearRec_struct t hbox hstS
      · refine setState_forall h ?_ p hp
        intro q hq hqk
        exact hstS

theorem clearOne_timesOK (m : Manager) (a : Agent) (t d : ℚ) (hrec : recsOK m)
    (h : timesOK m t) : timesOK (clearOne m a t d) t := by
  unfold clearOne
  cases hl : lookupState m.states a.id with
  | none => exact h
  | some st =>
      have hstS : stStruct st := hrec _ (lookup_mem hl)
      have hstT : stTimes st t := h _ (lookup_mem hl)
      have hall : ∀ p ∈ m.states, stTimes p.2 t := h
      dsimp only
      split <;> split
      all_goals intro p hp
      all_goals dsimp only at hp
      · refine @setState_forall (fun x => stTimes x t) m.states a.id _ hall ?_ p hp
        intro q hq hqk
        exact clearRec_times (enterRec_times hstS hstT)
      · refine @setState_forall (fun x => stTimes x t) m.states a.id _ hall ?_ p hp
        intro q hq hqk
        exact enterRec_times hstS hstT
      · refine @setState_forall (fun x => stTimes x t) m.states a.id _ hall ?_ p hp
        intro q hq hqk
        exact clearRec_times hstT
      · refine @setState_forall (fun x => stTimes x t) m.states a.id _ hall ?_ p hp
        intro q hq hqk
        exact hstT

theorem clearOne_activeOK (m : Manager) (a : Agent) (t d : ℚ) (h : activeOK m) :
    activeOK (clearOne m a t d) := by
  unfold clearOne
  cases hl : lookupState m.states a.id with
  | none => exact h
  | some st =>
      obtain ⟨hnd, hmem⟩ := h
      dsimp only
      split <;> split
      all_goals constructor
      · exact hnd.erase a.id
      · intro vid hvid
        have hvne : vid ≠ a.id ∧ vid ∈ m.active_ids := (hnd.mem_erase_iff).mp hvid
        obtain ⟨st0, hst0, hcl0⟩ := hmem vid hvne.2
        refine ⟨st0, ?_, hcl0⟩
        rw [lookup_setState]
        simp [hvne.1, hst0]
      · exact hnd
      · intro vid hvid
        obtain ⟨st0, hst0, hcl0⟩ := hmem vid hvid
        by_cases hva : vid = a.id
        · subst hva
          have hst0st : st0 = st := by
            rw [hst0] at hl
            exact Option.some.inj hl
          refine ⟨enterRec t st, ?_, ?_⟩
          · rw [lookup_setState]
            simp [hl]
          · show (enterRec t st).cleared = false
            have : st.cleared = false := hst0st ▸ hcl0
            simpa [enterRec] using this
        · refine ⟨st0, ?_, hcl0⟩
          rw [lookup_setState]
          simp [hva, hst0]
      · exact hnd.erase a.id
      · intro vid hvid
        have hvne : vid ≠ a.id ∧ vid ∈ m.active_ids := (hnd.mem_erase_iff).mp hvid
        obtain ⟨st0, hst0, hcl0⟩ := hmem vid hvne.2
        refine ⟨st0, ?_, hcl0⟩
        rw [lookup_setState]
        simp [hvne.1, hst0]
      · exact hnd
      · intro vid hvid
        obtain ⟨st0, hst0, hcl0⟩ := hmem vid hvid
        by_cases hva : vid = a.id
        · subst hva
          have hst0st : st0 = st := by
            rw [hst0] at hl
            exact Option.some.inj hl
          refine ⟨st, ?_, hst0st ▸ hcl0⟩
          rw [lookup_setState]
          simp [hl]
        · refine ⟨st0, ?_, hcl0⟩
          rw [lookup_setState]
          simp [hva, hst0]

theorem clearOne_lenOK (m : Manager) (a : Agent) (t d : ℚ) (h : lenOK m) :
    lenOK (clearOne m a t d) := by
  have hmax := clearOne_max m a t d
  rcases clearOne_active_cases m a t d with hc | hc
  · exact ⟨by rw [hc, hmax]; exact h.1, by rw [hmax]; exact h.2⟩
  · refine ⟨?_, by rw [hmax]; exact h.2⟩
    rw [hc, hmax]
    calc ((m.active_ids.erase a.id).length : Int)
        ≤ (m.active_ids.length : Int) := by
          exact_mod_cast List.length_erase_le a.id m.active_ids
      _ ≤ m.max_active := h.1

theorem mkNew_struct (vid : Nat) (t : ℚ) : stStruct (VehicleState.mkNew vid t) := by
  refine ⟨?_, ?_, ?_⟩ <;> intro h <;> simp [VehicleState.mkNew] at h

theorem mkNew_times (vid : Nat) (t : ℚ) : stTimes (VehicleState.mkNew vid t) t := by
  refine ⟨le_refl t, ?_, ?_, ?_⟩ <;> intro q hq <;> simp [VehicleState.mkNew] at hq

theorem register_activeOK (m : Manager) (agents : List Agent) (t : ℚ) (h : activeOK m) :
    activeOK (registerArrivals m agents t) := by
  refine ⟨by rw [register_active]; exact h.1, ?_⟩
  intro vid hvid
  rw [register_active] at hvid
  obtain ⟨st, hst, hcl⟩ := h.2 vid hvid
  exact ⟨st, register_lookup_some m agents t vid st hst, hcl⟩

theorem register_lenOK (m : Manager) (agents : List Agent) (t : ℚ) (h : lenOK m) :
    lenOK (registerArrivals m agents t) := by
  rw [lenOK, register_active, register_max]
  exact h

theorem register_recsOK (m : Manager) (agents : List Agent) (t : ℚ) (h : recsOK m) :
    recsOK (registerArrivals m agents t) := by
  intro p hp
  rcases register_mem m agents t p hp with hold | hnew
  · exact h _ hold
  · rw [hnew]
    exact mkNew_struct p.1 t

theorem register_timesOK (m : Manager) (agents : List Agent) (t : ℚ) (h : timesOK m t) :
    timesOK (registerArrivals m agents t) t := by
  intro p hp
  rcases register_mem m agents t p hp with hold | hnew
  · exact h _ hold
  · rw [hnew]
    exact mkNew_times p.1 t

theorem evict_activeOK (m : Manager) (agents : List Agent) (h : activeOK m) :
    activeOK (evictMissing m agents) := by
  rw [activeOK, evict_active m agents h.1]
  refine ⟨h.1.filter _, ?_⟩
  intro vid hvid
  have hmem := List.mem_filter.mp hvid
  obtain ⟨st, hst, hcl⟩ := h.2 vid hmem.1
  have hdead : vid ∉ deadIds m agents := by simpa using hmem.2
  have hany : agents.any (fun a => a.id = vid) = true := by
    by_contra hno
    refine hdead (List.mem_filter.mpr ⟨?_, by simpa using hno⟩)
    have : lookupState m.states vid ≠ none := by simp [hst]
    by_contra hk
    exact this ((lookup_eq_none_iff _ _).mpr hk)
  refine ⟨st, ?_, hcl⟩
  rw [evict_lookup, if_pos hany]
  exact hst

theorem evict_lenOK (m : Manager) (agents : List Agent) (hnd : m.active_ids.Nodup)
    (h : lenOK m) : lenOK (evictMissing m agents) := by
  rw [lenOK, evict_active m agents hnd, evict_max]
  refine ⟨?_, h.2⟩
  calc ((m.active_ids.filter _).length : Int)
      ≤ (m.active_ids.length : Int) := by exact_mod_cast (List.filter_sublist _).length_le
    _ ≤ m.max_active := h.1

theorem evict_recsOK (m : Manager) (agents : List Agent) (h : recsOK m) :
    recsOK (evictMissing m agents) :=
  fun p hp => h p (evict_states_sub m agents p hp)

theorem evict_timesOK (m : Manager) (agents : List Agent) (T : ℚ) (h : timesOK m T) :
    timesOK (evictMissing m agents) T :=
  fun p hp => h p (evict_states_sub m agents p hp)

theorem clearStep_max (m : Manager) (agents : List Agent) (t d : ℚ) :
    (clearStep m agents t d).max_active = m.max_active := by
  induction agents generalizing m with
  | nil => rfl
  | cons a rest ih =>
      show (clearStep (clearOne m a t d) rest t d).max_active = _
      rw [ih, clearOne_max]

theorem clearStep_keys (m : Manager) (agents : List Agent) (t d : ℚ) :
    (clearStep m agents t d).states.map Prod.fst = m.states.map Prod.fst := by
  induction agents generalizing m with
  | nil => rfl
  | cons a rest ih =>
      show ((clearStep (clearOne m a t d) rest t d).states.map Prod.fst) = _
      rw [ih, clearOne_keys]

theorem clearStep_active_sub (m : Manager) (agents : List Agent) (t d : ℚ) :
    ∀ vid ∈ (clearStep m agents t d).active_ids, vid ∈ m.active_ids := by
  induction agents generalizing m with
  | nil => exact fun vid h => h
  | cons a rest ih =>
      intro vid hvid
      have h1 : vid ∈ (clearOne m a t d).active_ids :=
        ih (clearOne m a t d) vid hvid
      rcases clearOne_active_cases m a t d with hc | hc
      · rwa [hc] at h1
      · rw [hc] at h1
        exact List.mem_of_mem_erase h1

theorem clearStep_ev (m : Manager) (agents : List Agent) (t d : ℚ) (vid : Nat)
    (st : VehicleState) (h : lookupState m.states vid = some st) :
    ∃ st', lookupState (clearStep m agents t d).states vid = some st' ∧ stEv st st' := by
  induction agents generalizing m st with
  | nil => exact ⟨st, h, stEv_refl st⟩
  | cons a rest ih =>
      obtain ⟨st1, hst1, hev1⟩ := clearOne_ev m a t d vid st h
      obtain ⟨st2, hst2, hev2⟩ := ih (clearOne m a t d) st1 hst1
      exact ⟨st2, hst2, stEv_trans hev1 hev2⟩

theorem clearStep_recsOK (m : Manager) (agents : List Agent) (t d : ℚ) (h : recsOK m) :
    recsOK (clearStep m agents t d) := by
  induction agents generalizing m with
  | nil => exact h
  | cons a rest ih => exact ih _ (clearOne_recsOK m a t d h)

theorem clearStep_activeOK (m : Manager) (agents : List Agent) (t d : ℚ) (h : activeOK m) :
    activeOK (clearStep m agents t d) := by
  induction agents generalizing m with
  | nil => exact h
  | cons a rest ih => exact ih _ (clearOne_activeOK m a t d h)

theorem clearStep_lenOK (m : Manager) (agents : List Agent) (t d : ℚ) (h : lenOK m) :
    lenOK (clearStep m agents t d) := by
  induction agents generalizing m with
  | nil => exact h
  | cons a rest ih => exact ih _ (clearOne_lenOK m a t d h)

theorem clearStep_timesOK (m : Manager) (agents : List Agent) (t d : ℚ) (hrec : recsOK m)
    (h : timesOK m t) : timesOK (clearStep m agents t d) t := by
  induction agents generalizing m with
  | nil => exact h
  | cons a rest ih =>
      exact ih _ (clearOne_recsOK m a t d hrec) (clearOne_timesOK m a t d hrec h)

/-!  Phase 4: `assignPermissions`. -/

theorem mem_keys_unique {s : List (Nat × VehicleState)} (hnd : (s.map Prod.fst).Nodup)
    {p : Nat × VehicleState} (hp : p ∈ s) : lookupState s p.1 = some p.2 := by
  induction s with
  | nil => cases hp
  | cons q rest ih =>
      obtain ⟨a, b⟩ := q
      rw [lookupState_cons]
      rcases List.mem_cons.mp hp with heq | hrest
      · rw [heq]
        simp
      · have hpk : p.1 ∈ rest.map Prod.fst := List.mem_map.mpr ⟨p, hrest, rfl⟩
        have hane : ¬ a = p.1 := by
          intro hc
          have := (List.nodup_cons.mp hnd).1
          exact this (hc ▸ hpk)
        rw [if_neg hane]
        exact ih (List.nodup_cons.mp hnd).2 hrest

theorem permRec_struct (t : ℚ) {st : VehicleState} (h : stStruct st) :
    stStruct { st with permission_time := some t } :=
  ⟨fun hb => h.1 hb, fun hc => h.2.1 hc, fun hx => h.2.2 hx⟩

theorem permRec_times {st : VehicleState} {t : ℚ} (hT : stTimes st t)
    (hx : st.exit_time = none) :
    stTimes { st with permission_time := some t } t := by
  obtain ⟨h1, h2, h3, h4⟩ := hT
  refine ⟨h1, ?_, h3, ?_⟩
  · intro q hq
    have hqt : q = t := by simpa using hq.symm
    subst hqt
    exact ⟨h1, le_refl q⟩
  · intro q hq
    simp only [hx] at hq
    cases hq

theorem permSet_ev (t : ℚ) {st : VehicleState} (hp : st.permission_time = none) :
    stEv st { st with permission_time := some t } := by
  refine ⟨rfl, rfl, fun hb => hb, fun hc => hc, ?_, fun q hq => hq, fun q hq => hq,
    fun he => he⟩
  intro q hq
  rw [hp] at hq
  cases hq

theorem admitLoop_cons (m : Manager) (t : ℚ) (vid : Nat) (ar : ℚ) (rest : List (Nat × ℚ)) :
    admitLoop m t ((vid, ar) :: rest) =
      if (m.active_ids.length : Int) ≥ m.max_active then m
      else
        admitLoop
          (match lookupState m.states vid with
           | some st =>
               if st.permission_time = none then
                 { m with active_ids := m.active_ids ++ [vid],
                          states := setState m.states vid
                            (fun s => { s with permission_time := some t }) }
               else { m with active_ids := m.active_ids ++ [vid] }
           | none => { m with active_ids := m.active_ids ++ [vid] }) t rest := by
  rw [admitLoop]

theorem admitLoop_max (l : List (Nat × ℚ)) (m : Manager) (t : ℚ) :
    (admitLoop m t l).max_active = m.max_active := by
  induction l generalizing m with
  | nil => rfl
  | cons hd rest ih =>
      obtain ⟨vid, ar⟩ := hd
      rw [admitLoop_cons]
      split
      · rfl
      · cases hl : lookupState m.states vid with
        | none => rw [ih]
        | some st => by_cases hp : st.permission_time = none <;> simp [hl, hp, ih]

theorem admitLoop_keys (l : List (Nat × ℚ)) (m : Manager) (t : ℚ) :
    (admitLoop m t l).states.map Prod.fst = m.states.map Prod.fst := by
  induction l generalizing m with
  | nil => rfl
  | cons hd rest ih =>
      obtain ⟨vid, ar⟩ := hd
      rw [admitLoop_cons]
      split
      · rfl
      · cases hl : lookupState m.states vid with
        | none => rw [ih]
        | some st =>
            by_cases hp : st.permission_time = none <;> simp [hl, hp, ih, keys_setState]

theorem admitLoop_ev (l : List (Nat × ℚ)) (m : Manager) (t : ℚ) (vid : Nat)
    (st : VehicleState) (h : lookupState m.states vid = some st) :
    ∃ st', lookupState (admitLoop m t l).states vid = some st' ∧ stEv st st' ∧
      (st' = st ∨ st' = { st with permission_time := some t }) := by
  induction l generalizing m st with
  | nil => exact ⟨st, h, stEv_refl st, Or.inl rfl⟩
  | cons hd rest ih =>
      obtain ⟨w, ar⟩ := hd
      rw [admitLoop_cons]
      split
      · exact ⟨st, h, stEv_refl st, Or.inl rfl⟩
      · cases hl : lookupState m.states w with
        | none => exact ih _ st h
        | some stw =>
            by_cases hp : stw.permission_time = none
            · simp only [hl, hp, if_pos]
              by_cases hvw : vid = w
              · have hstw : stw = st := Option.some.inj (hl.symm.trans (hvw ▸ h))
                subst hstw
                obtain ⟨st', hst', hev, hcase⟩ := ih
                  { m with active_ids := m.active_ids ++ [w],
                           states := setState m.states w
                             (fun s => { s with permission_time := some t }) }
                  { stw with permission_time := some t }
                  (by dsimp only
                      rw [lookup_setState, if_pos hvw, h]
                      rfl)
                refine ⟨st', hst', stEv_trans (permSet_ev t hp) hev, ?_⟩
                rcases hcase with hc | hc
                · exact Or.inr hc
                · right
                  rw [hc]
              · obtain ⟨st', hst', hev, hcase⟩ := ih
                  { m with active_ids := m.active_ids ++ [w],
                           states := setState m.states w
                             (fun s => { s with permission_time := some t }) }
                  st
                  (by dsimp only
                      rw [lookup_setState, if_neg hvw]
                      exact h)
                exact ⟨st', hst', hev, hcase⟩
            · simp only [hl, hp, if_neg, ite_false]
              exact ih _ st h

theorem admitLoop_active (l : List (Nat × ℚ)) (m : Manager) (t : ℚ) :
    (admitLoop m t l).active_ids =
      m.active_ids ++
        (l.map Prod.fst).take ((m.max_active - (m.active_ids.length : Int)).toNat) := by
  induction l generalizing m with
  | nil => simp [admitLoop]
  | cons hd rest ih =>
      obtain ⟨vid, ar⟩ := hd
      rw [admitLoop_cons]
      split
      · next hguard =>
          have hz : (m.max_active - (m.active_ids.length : Int)).toNat = 0 := by omega
          simp [hz]
      · next hguard =>
          have hlen1 : ((m.active_ids ++ [vid]).length : Int) =
              (m.active_ids.length : Int) + 1 := by
            push_cast [List.length_append, List.length_singleton]
            ring
          have htake : (m.max_active - (m.active_ids.length : Int)).toNat =
              ((m.max_active - ((m.active_ids.length : Int) + 1)).toNat) + 1 := by omega
          cases hl : lookupState m.states vid with
          | none =>
              rw [ih]
              dsimp only
              rw [hlen1, htake]
              simp
          | some stw =>
              by_cases hp : stw.permission_time = none
              · simp only [hp, if_pos]
                rw [ih]
                dsimp only
                rw [hlen1, htake]
                simp
              · simp only [hp, if_neg, ite_false]
                rw [ih]
                dsimp only
                rw [hlen1, htake]
                simp

theorem admitLoop_lookup_notmem (l : List (Nat × ℚ)) (m : Manager) (t : ℚ) (vid : Nat)
    (h : vid ∉ l.map Prod.fst) :
    lookupState (admitLoop m t l).states vid = lookupState m.states vid := by
  induction l generalizing m with
  | nil => rfl
  | cons hd rest ih =>
      obtain ⟨w, ar⟩ := hd
      simp only [List.map_cons, List.mem_cons, not_or] at h
      rw [admitLoop_cons]
      split
      · rfl
      · cases hl : lookupState m.states w with
        | none => exact ih _ h.2
        | some stw =>
            by_cases hp : stw.permission_time = none
            · simp only [hp, if_pos]
              rw [ih _ h.2]
              dsimp only
              rw [lookup_setState, if_neg h.1]
            · simp only [hp, if_neg, ite_false]
              exact ih _ h.2

theorem admitLoop_lookup_mem (l : List (Nat × ℚ)) (m : Manager) (t : ℚ)
    (hnd : (l.map Prod.fst).Nodup) (vid : Nat) (st : VehicleState)
    (hmem : vid ∈ (l.map Prod.fst).take ((m.max_active - (m.active_ids.length : Int)).toNat))
    (h : lookupState m.states vid = some st) :
    lookupState (admitLoop m t l).states vid =
      some (if st.permission_time = none
            then { st with permission_time := some t } else st) := by
  induction l generalizing m st with
  | nil => simp at hmem
  | cons hd rest ih =>
      obtain ⟨w, ar⟩ := hd
      simp only [List.map_cons, List.nodup_cons] at hnd
      rw [admitLoop_cons]
      split
      · next hguard =>
          have hz : (m.max_active - (m.active_ids.length : Int)).toNat = 0 := by omega
          rw [hz] at hmem
          simp at hmem
      · next hguard =>
          have htake : (m.max_active - (m.active_ids.length : Int)).toNat =
              ((m.max_active - ((m.active_ids.length : Int) + 1)).toNat) + 1 := by omega
          rw [htake] at hmem
          simp only [List.map_cons, List.take_succ_cons, List.mem_cons] at hmem
          have hlen1 : ((m.active_ids ++ [w]).length : Int) =
              (m.active_ids.length : Int) + 1 := by
            push_cast [List.length_append, List.length_singleton]
            ring
          rcases hmem with hvw | hvtail
          · subst hvw
            rw [h]
            by_cases hp : st.permission_time = none
            · simp only [hp, if_pos]
              rw [admitLoop_lookup_notmem _ _ _ _ hnd.1]
              dsimp only
              rw [lookup_setState, if_pos rfl, h]
              simp [hp]
            · simp only [hp, if_neg, ite_false]
              rw [admitLoop_lookup_notmem _ _ _ _ hnd.1]
              simp [h, hp]
          · have hvw : ¬ vid = w := by
              intro hc
              subst hc
              exact hnd.1 ((List.take_sublist _ _).subset hvtail)
            cases hl : lookupState m.states w with
            | none =>
                refine ih _ hnd.2 st ?_ h
                dsimp only
                rw [hlen1]
                exact hvtail
            | some stw =>
                by_cases hp : stw.permission_time = none
                · simp only [hp, if_pos]
                  refine ih _ hnd.2 st ?_ ?_
                  · dsimp only
                    rw [hlen1]
                    exact hvtail
                  · dsimp only
                    rw [lookup_setState, if_neg hvw]
                    exact h
                · simp only [hp, if_neg, ite_false]
                  refine ih _ hnd.2 st ?_ h
                  dsimp only
                  rw [hlen1]
                  exact hvtail

theorem admit_mgr_inv_aux (m : Manager) (w : Nat)
    (S : List (Nat × VehicleState)) (stw' : VehicleState)
    (hkeysS : S.map Prod.fst = m.states.map Prod.fst)
    (hlookne : ∀ vid, ¬ vid = w → lookupState S vid = lookupState m.states vid)
    (hlookw : lookupState S w = some stw')
    (hclw' : stw'.cleared = false)
    (hrecS : ∀ p ∈ S, stStruct p.2)
    (hguard : ¬ (m.active_ids.length : Int) ≥ m.max_active)
    (hInv : MgrInv m) (hwact : w ∉ m.active_ids) :
    MgrInv { m with active_ids := m.active_ids ++ [w], states := S } := by
  obtain ⟨hkeys, ⟨hand, hamem⟩, ⟨hlen1, hlen2⟩, hrecs⟩ := hInv
  refine ⟨?_, ⟨?_, ?_⟩, ⟨?_, ?_⟩, ?_⟩
  · show (S.map Prod.fst).Nodup
    rw [hkeysS]
    exact hkeys
  · show (m.active_ids ++ [w]).Nodup
    rw [List.nodup_append]
    refine ⟨hand, List.nodup_singleton w, ?_⟩
    intro x hx hx2
    simp only [List.mem_singleton] at hx2
    subst hx2
    exact hwact hx
  · intro vid hvid
    rcases List.mem_append.mp hvid with hleft | hright
    · obtain ⟨st0, hst0, hcl0⟩ := hamem vid hleft
      have hvw : ¬ vid = w := fun hc => hwact (hc ▸ hleft)
      exact ⟨st0, (hlookne vid hvw).trans hst0, hcl0⟩
    · simp only [List.mem_singleton] at hright
      subst hright
      exact ⟨stw', hlookw, hclw'⟩
  · show ((m.active_ids ++ [w]).length : Int) ≤ m.max_active
    push_cast [List.length_append, List.length_singleton]
    omega
  · exact hlen2
  · exact hrecS

theorem admitLoop_MgrInv (l : List (Nat × ℚ)) (m : Manager) (t : ℚ)
    (hInv : MgrInv m) (hT : timesOK m t)
    (hnd : (l.map Prod.fst).Nodup)
    (hl : ∀ q ∈ l, q.1 ∉ m.active_ids ∧
      ∃ st, lookupState m.states q.1 = some st ∧ st.cleared = false) :
    MgrInv (admitLoop m t l) ∧ timesOK (admitLoop m t l) t := by
  induction l generalizing m with
  | nil => exact ⟨hInv, hT⟩
  | cons hd rest ih =>
      obtain ⟨w, ar⟩ := hd
      simp only [List.map_cons, List.nodup_cons] at hnd
      rw [admitLoop_cons]
      split
      · exact ⟨hInv, hT⟩
      · next hguard =>
          obtain ⟨hwact, stw, hstw, hclw⟩ := hl (w, ar) (List.mem_cons_self _ _)
          rw [hstw]
          have hrestl : ∀ q ∈ rest,
              q.1 ∉ m.active_ids ++ [w] ∧ ¬ q.1 = w := by
            intro q hq
            have hq1 : q.1 ∈ rest.map Prod.fst := List.mem_map.mpr ⟨q, hq, rfl⟩
            have hqw : ¬ q.1 = w := fun hc => hnd.1 (hc ▸ hq1)
            refine ⟨?_, hqw⟩
            simp only [List.mem_append, List.mem_singleton, not_or]
            exact ⟨(hl q (List.mem_cons_of_mem _ hq)).1, hqw⟩
          by_cases hp : stw.permission_time = none
          · simp only [hp, if_pos]
            have hstructw : stStruct stw := hInv.2.2.2 _ (lookup_mem hstw)
            have hxw : stw.exit_time = none := by
              cases hx : stw.exit_time with
              | none => rfl
              | some x =>
                  have := hstructw.2.2 (by simp [hx])
                  rw [this] at hclw
                  cases hclw
            have haux := admit_mgr_inv_aux m w
              (setState m.states w (fun s => { s with permission_time := some t }))
              { stw with permission_time := some t }
              (keys_setState _ _ _)
              (fun vid hvw => by rw [lookup_setState, if_neg hvw])
              (by rw [lookup_setState, if_pos rfl, hstw]; rfl)
              (by simpa using hclw)
              (by
                refine setState_forall hInv.2.2.2 ?_
                intro q hq hqw
                exact permRec_struct t (hInv.2.2.2 _ hq))
              hguard ⟨hInv.1, hInv.2.1, hInv.2.2.1, hInv.2.2.2⟩ hwact
            have hT2 : ∀ p ∈ setState m.states w
                (fun s => { s with permission_time := some t }), stTimes p.2 t := by
              refine @setState_forall (fun x => stTimes x t) m.states w _ hT ?_
              intro q hq hqw
              have hq2 : q.2 = stw := by
                have := mem_keys_unique hInv.1 hq
                rw [hqw] at this
                rw [this] at hstw
                exact Option.some.inj hstw
              rw [hq2]
              exact permRec_times (hT _ (lookup_mem hstw)) hxw
            refine ih _ haux hT2 hnd.2 ?_
            intro q hq
            refine ⟨(hrestl q hq).1, ?_⟩
            obtain ⟨st, hst, hcl⟩ := (hl q (List.mem_cons_of_mem _ hq)).2
            refine ⟨st, ?_, hcl⟩
            dsimp only
            rw [lookup_setState, if_neg (hrestl q hq).2]
            exact hst
          · simp only [hp, if_neg, ite_false]
            have haux := admit_mgr_inv_aux m w m.states stw rfl
              (fun vid _ => rfl) hstw hclw hInv.2.2.2 hguard
              ⟨hInv.1, hInv.2.1, hInv.2.2.1, hInv.2.2.2⟩ hwact
            refine ih _ haux (fun p hp => hT p hp) hnd.2 ?_
            intro q hq
            exact ⟨(hrestl q hq).1, (hl q (List.mem_cons_of_mem _ hq)).2⟩

theorem admitLoop_MgrInv_only (l : List (Nat × ℚ)) (m : Manager) (t : ℚ)
    (hInv : MgrInv m)
    (hnd : (l.map Prod.fst).Nodup)
    (hl : ∀ q ∈ l, q.1 ∉ m.active_ids ∧
      ∃ st, lookupState m.states q.1 = some st ∧ st.cleared = false) :
    MgrInv (admitLoop m t l) := by
  induction l generalizing m with
  | nil => exact hInv
  | cons hd rest ih =>
      obtain ⟨w, ar⟩ := hd
      simp only [List.map_cons, List.nodup_cons] at hnd
      rw [admitLoop_cons]
      split
      · exact hInv
      · next hguard =>
          obtain ⟨hwact, stw, hstw, hclw⟩ := hl (w, ar) (List.mem_cons_self _ _)
          rw [hstw]
          have hrestl : ∀ q ∈ rest,
              q.1 ∉ m.active_ids ++ [w] ∧ ¬ q.1 = w := by
            intro q hq
            have hq1 : q.1 ∈ rest.map Prod.fst := List.mem_map.mpr ⟨q, hq, rfl⟩
            have hqw : ¬ q.1 = w := fun hc => hnd.1 (hc ▸ hq1)
            refine ⟨?_, hqw⟩
            simp only [List.mem_append, List.mem_singleton, not_or]
            exact ⟨(hl q (List.mem_cons_of_mem _ hq)).1, hqw⟩
          by_cases hp : stw.permission_time = none
          · simp only [hp, if_pos]
            have haux := admit_mgr_inv_aux m w
              (setState m.states w (fun s => { s with permission_time := some t }))
              { stw with permission_time := some t }
              (keys_setState _ _ _)
              (fun vid hvw => by rw [lookup_setState, if_neg hvw])
              (by rw [lookup_setState, if_pos rfl, hstw]; rfl)
              (by simpa using hclw)
              (by
                refine setState_forall hInv.2.2.2 ?_
                intro q hq hqw
                exact permRec_struct t (hInv.2.2.2 _ hq))
              hguard ⟨hInv.1, hInv.2.1, hInv.2.2.1, hInv.2.2.2⟩ hwact
            refine ih _ haux hnd.2 ?_
            intro q hq
            refine ⟨(hrestl q hq).1, ?_⟩
            obtain ⟨st, hst, hcl⟩ := (hl q (List.mem_cons_of_mem _ hq)).2
            refine ⟨st, ?_, hcl⟩
            dsimp only
            rw [lookup_setState, if_neg (hrestl q hq).2]
            exact hst
          · simp only [hp, if_neg, ite_false]
            have haux := admit_mgr_inv_aux m w m.states stw rfl
              (fun vid _ => rfl) hstw hclw hInv.2.2.2 hguard
              ⟨hInv.1, hInv.2.1, hInv.2.2.1, hInv.2.2.2⟩ hwact
            refine ih _ haux hnd.2 ?_
            intro q hq
            exact ⟨(hrestl q hq).1, (hl q (List.mem_cons_of_mem _ hq)).2⟩

theorem insertByArrival_perm (x : Nat × ℚ) (l : List (Nat × ℚ)) :
    (insertByArrival x l).Perm (x :: l) := by
  induction l with
  | nil => exact List.Perm.refl _
  | cons y ys ih =>
      rw [insertByArrival]
      split
      · exact List.Perm.refl _
      · exact (List.Perm.cons y ih).trans (List.Perm.swap x y ys)

theorem sortByArrival_perm (l : List (Nat × ℚ)) : (sortByArrival l).Perm l := by
  induction l with
  | nil => exact List.Perm.refl _
  | cons x xs ih =>
      rw [sortByArrival]
      exact (insertByArrival_perm x (sortByArrival xs)).trans (List.Perm.cons x ih)

theorem sortedWaiting_perm (m : Manager) :
    (sortedWaiting m).Perm
      ((m.states.filter (fun p => !p.2.cleared && !(m.active_ids.contains p.1))).map
        (fun p => (p.1, p.2.arrival_time))) :=
  sortByArrival_perm _

theorem sortedWaiting_ids_nodup (m : Manager) (h : keysOK m) :
    ((sortedWaiting m).map Prod.fst).Nodup := by
  have hperm := (sortedWaiting_perm m).map Prod.fst
  refine hperm.nodup_iff.mpr ?_
  rw [List.map_map]
  have hbase : ((m.states.filter
      (fun p => !p.2.cleared && !(m.active_ids.contains p.1))).map
        (Prod.fst ∘ fun p => (p.1, p.2.arrival_time))) =
      (m.states.filter
        (fun p => !p.2.cleared && !(m.active_ids.contains p.1))).map Prod.fst := by
    exact List.map_congr_left (fun p _ => rfl)
  rw [hbase]
  exact h.sublist ((List.filter_sublist _).map Prod.fst)

theorem sortedWaiting_mem (m : Manager) (h : keysOK m) :
    ∀ q ∈ sortedWaiting m, q.1 ∉ m.active_ids ∧
      ∃ st, lookupState m.states q.1 = some st ∧ st.cleared = false := by
  intro q hq
  have hq2 : q ∈ (m.states.filter
      (fun p => !p.2.cleared && !(m.active_ids.contains p.1))).map
        (fun p => (p.1, p.2.arrival_time)) :=
    (sortedWaiting_perm m).mem_iff.mp hq
  obtain ⟨p, hp, hqp⟩ := List.mem_map.mp hq2
  have hfil := List.mem_filter.mp hp
  have hpred := hfil.2
  simp only [Bool.and_eq_true, Bool.not_eq_true'] at hpred
  have hq1 : q.1 = p.1 := by rw [← hqp]
  have hnact : q.1 ∉ m.active_ids := by
    rw [hq1]
    intro hc
    have : m.active_ids.contains p.1 = true := List.elem_eq_true_of_mem hc
    rw [this] at hpred
    cases hpred.2
  refine ⟨hnact, p.2, ?_, hpred.1⟩
  rw [hq1]
  exact mem_keys_unique h hfil.1

theorem assign_MgrInv (m : Manager) (t : ℚ) (hInv : MgrInv m) :
    MgrInv (assignPermissions m t) :=
  admitLoop_MgrInv_only _ _ _ hInv (sortedWaiting_ids_nodup m hInv.1)
    (sortedWaiting_mem m hInv.1)

theorem assign_timed (m : Manager) (t : ℚ) (hInv : MgrInv m) (hT : timesOK m t) :
    MgrInv (assignPermissions m t) ∧ timesOK (assignPermissions m t) t :=
  admitLoop_MgrInv _ _ _ hInv hT (sortedWaiting_ids_nodup m hInv.1)
    (sortedWaiting_mem m hInv.1)

theorem assign_max (m : Manager) (t : ℚ) :
    (assignPermissions m t).max_active = m.max_active :=
  admitLoop_max _ _ _

theorem assign_keys (m : Manager) (t : ℚ) :
    (assignPermissions m t).states.map Prod.fst = m.states.map Prod.fst :=
  admitLoop_keys _ _ _

theorem assign_ev (m : Manager) (t : ℚ) (vid : Nat) (st : VehicleState)
    (h : lookupState m.states vid = some st) :
    ∃ st', lookupState (assignPermissions m t).states vid = some st' ∧ stEv st st' := by
  obtain ⟨st', h1, h2, h3⟩ := admitLoop_ev (sortedWaiting m) m t vid st h
  exact ⟨st', h1, h2⟩

/-!  `poll_completed` and `current_permissions`. -/

theorem poll_states_eq (m : Manager) :
    (pollCompleted m).2.states =
      m.states.map (fun p =>
        (p.1, if p.2.cleared && !p.2.exported then { p.2 with exported := true } else p.2)) := by
  show m.states.map _ = _
  refine List.map_congr_left ?_
  intro p _
  by_cases hc : p.2.cleared && !p.2.exported
  · simp [hc]
  · simp [hc]

theorem lookup_mapVals (g : VehicleState → VehicleState)
    (s : List (Nat × VehicleState)) (vid : Nat) :
    lookupState (s.map (fun p => (p.1, g p.2))) vid = (lookupState s vid).map g := by
  induction s with
  | nil => simp [lookupState]
  | cons p rest ih =>
      obtain ⟨a, b⟩ := p
      simp only [List.map_cons]
      rw [lookupState_cons, lookupState_cons]
      by_cases hav : a = vid
      · simp [hav]
      · simp [hav, ih]

theorem poll_lookup (m : Manager) (vid : Nat) :
    lookupState (pollCompleted m).2.states vid =
      (lookupState m.states vid).map (fun st =>
        if st.cleared && !st.exported then { st with exported := true } else st) := by
  rw [poll_states_eq]
  have := lookup_mapVals (fun st =>
    if st.cleared && !st.exported then { st with exported := true } else st) m.states vid
  convert this using 2

theorem poll_active (m : Manager) : (pollCompleted m).2.active_ids = m.active_ids := rfl

theorem poll_max (m : Manager) : (pollCompleted m).2.max_active = m.max_active := rfl

theorem poll_keys (m : Manager) :
    (pollCompleted m).2.states.map Prod.fst = m.states.map Prod.fst := by
  rw [poll_states_eq, List.map_map]
  exact List.map_congr_left (fun p _ => rfl)

theorem poll_ev (m : Manager) (vid : Nat) (st : VehicleState)
    (h : lookupState m.states vid = some st) :
    ∃ st', lookupState (pollCompleted m).2.states vid = some st' ∧ stEv st st' := by
  rw [poll_lookup, h]
  refine ⟨_, rfl, ?_⟩
  by_cases hc : st.cleared && !st.exported
  · simp only [hc, if_pos]
    exact ⟨rfl, rfl, fun hb => hb, fun hcl => hcl, fun q hq => hq, fun q hq => hq,
      fun q hq => hq, fun _ => rfl⟩
  · simp only [hc, if_neg, ite_false]
    exact stEv_refl st

theorem poll_mem_states (m : Manager) :
    ∀ p ∈ (pollCompleted m).2.states, ∃ q ∈ m.states, p.1 = q.1 ∧
      (p.2 = q.2 ∨ p.2 = { q.2 with exported := true }) := by
  rw [poll_states_eq]
  intro p hp
  obtain ⟨q, hq, hqp⟩ := List.mem_map.mp hp
  refine ⟨q, hq, ?_, ?_⟩
  · rw [← hqp]
  · rw [← hqp]
    by_cases hc : q.2.cleared && !q.2.exported
    · simp [hc]
    · simp [hc]

theorem poll_MgrInv (m : Manager) (hInv : MgrInv m) : MgrInv (pollCompleted m).2 := by
  obtain ⟨hkeys, ⟨hand, hamem⟩, hlen, hrecs⟩ := hInv
  refine ⟨?_, ⟨?_, ?_⟩, ?_, ?_⟩
  · show ((pollCompleted m).2.states.map Prod.fst).Nodup
    rw [poll_keys]
    exact hkeys
  · exact hand
  · intro vid hvid
    obtain ⟨st, hst, hcl⟩ := hamem vid hvid
    rw [poll_lookup, hst]
    refine ⟨_, rfl, ?_⟩
    by_cases hc : st.cleared && !st.exported
    · simp only [hc, if_pos]
      exact hcl
    · simp only [hc, if_neg, ite_false]
      exact hcl
  · exact hlen
  · intro p hp
    obtain ⟨q, hq, _, hcase⟩ := poll_mem_states m p hp
    rcases hcase with he | he
    · rw [he]
      exact hrecs _ hq
    · rw [he]
      obtain ⟨h1, h2, h3⟩ := hrecs _ hq
      exact ⟨fun hb => h1 hb, fun hc => h2 hc, fun hx => h3 hx⟩

theorem poll_timesOK (m : Manager) (T : ℚ) (h : timesOK m T) :
    timesOK (pollCompleted m).2 T := by
  intro p hp
  obtain ⟨q, hq, _, hcase⟩ := poll_mem_states m p hp
  rcases hcase with he | he
  · rw [he]
    exact h _ hq
  · rw [he]
    obtain ⟨h1, h2, h3, h4⟩ := h _ hq
    exact ⟨h1, h2, h3, h4⟩

theorem poll_fst_pred (m : Manager) :
    ∀ st ∈ (pollCompleted m).1, st.cleared = true ∧ st.exported = false := by
  intro st hst
  obtain ⟨p, hp, hps⟩ := List.mem_map.mp hst
  have := (List.mem_filter.mp hp).2
  simp only [Bool.and_eq_true, Bool.not_eq_true'] at this
  rw [← hps]
  exact this

theorem poll_fst_mem (m : Manager) :
    ∀ st ∈ (pollCompleted m).1, ∃ vid, (vid, st) ∈ m.states := by
  intro st hst
  obtain ⟨p, hp, hps⟩ := List.mem_map.mp hst
  exact ⟨p.1, by rw [← hps]; exact List.mem_of_mem_filter hp⟩

theorem poll_poll_empty (m : Manager) :
    (pollCompleted (pollCompleted m).2).1 = [] := by
  show ((pollCompleted m).2.states.filter _).map Prod.snd = []
  rw [poll_states_eq, List.filter_map]
  have : (List.filter
      ((fun p => p.2.cleared && !p.2.exported) ∘ fun p =>
        (p.1, if p.2.cleared && !p.2.exported then { p.2 with exported := true } else p.2))
      m.states) = [] := by
    rw [List.filter_eq_nil_iff]
    intro p _
    by_cases hc : p.2.cleared && !p.2.exported
    · simp [Function.comp, hc]
    · simp only [Function.comp_apply, hc, if_neg, ite_false]
      exact hc
  rw [this]
  rfl

/-!  Whole-call and whole-run invariants. -/

theorem update_eq (m : Manager) (agents : List Agent) (t : ℚ) :
    update m agents t =
      assignPermissions
        (clearStep (evictMissing (registerArrivals m agents t) agents) agents t
          (staleDist agents)) t := rfl

theorem update_MgrInv (m : Manager) (agents : List Agent) (t : ℚ) (hInv : MgrInv m) :
    MgrInv (update m agents t) := by
  rw [update_eq]
  obtain ⟨hk, ha, hl, hr⟩ := hInv
  have h1 : MgrInv (registerArrivals m agents t) :=
    ⟨register_keysOK _ _ _ hk, register_activeOK _ _ _ ha,
     register_lenOK _ _ _ hl, register_recsOK _ _ _ hr⟩
  have h2 : MgrInv (evictMissing (registerArrivals m agents t) agents) :=
    ⟨evict_keysOK _ _ h1.1, evict_activeOK _ _ h1.2.1,
     evict_lenOK _ _ h1.2.1.1 h1.2.2.1, evict_recsOK _ _ h1.2.2.2⟩
  have h3 : MgrInv (clearStep (evictMissing (registerArrivals m agents t) agents)
      agents t (staleDist agents)) :=
    ⟨by rw [keysOK, clearStep_keys]; exact h2.1,
     clearStep_activeOK _ _ _ _ h2.2.1,
     clearStep_lenOK _ _ _ _ h2.2.2.1,
     clearStep_recsOK _ _ _ _ h2.2.2.2⟩
  exact assign_MgrInv _ _ h3

theorem update_timed (m : Manager) (agents : List Agent) (t T : ℚ) (hInv : MgrInv m)
    (hT : timesOK m T) (hle : T ≤ t) :
    MgrInv (update m agents t) ∧ timesOK (update m agents t) t := by
  rw [update_eq]
  obtain ⟨hk, ha, hl, hr⟩ := hInv
  have hTt : timesOK m t := fun p hp => stTimes_mono (hT p hp) hle
  have h1 : MgrInv (registerArrivals m agents t) :=
    ⟨register_keysOK _ _ _ hk, register_activeOK _ _ _ ha,
     register_lenOK _ _ _ hl, register_recsOK _ _ _ hr⟩
  have hT1 : timesOK (registerArrivals m agents t) t := register_timesOK _ _ _ hTt
  have h2 : MgrInv (evictMissing (registerArrivals m agents t) agents) :=
    ⟨evict_keysOK _ _ h1.1, evict_activeOK _ _ h1.2.1,
     evict_lenOK _ _ h1.2.1.1 h1.2.2.1, evict_recsOK _ _ h1.2.2.2⟩
  have hT2 : timesOK (evictMissing (registerArrivals m agents t) agents) t :=
    evict_timesOK _ _ _ hT1
  have h3 : MgrInv (clearStep (evictMissing (registerArrivals m agents t) agents)
      agents t (staleDist agents)) :=
    ⟨by rw [keysOK, clearStep_keys]; exact h2.1,
     clearStep_activeOK _ _ _ _ h2.2.1,
     clearStep_lenOK _ _ _ _ h2.2.2.1,
     clearStep_recsOK _ _ _ _ h2.2.2.2⟩
  have hT3 : timesOK (clearStep (evictMissing (registerArrivals m agents t) agents)
      agents t (staleDist agents)) t :=
    clearStep_timesOK _ _ _ _ h2.2.2.2 hT2
  exact assign_timed _ _ h3 hT3

theorem update_max (m : Manager) (agents : List Agent) (t : ℚ) :
    (update m agents t).max_active = m.max_active := by
  rw [update_eq, assign_max, clearStep_max, evict_max, register_max]

theorem update_ev (m : Manager) (agents : List Agent) (t : ℚ) (vid : Nat)
    (st st' : VehicleState) (h : lookupState m.states vid = some st)
    (h' : lookupState (update m agents t).states vid = some st') : stEv st st' := by
  rw [update_eq] at h'
  have h1 : lookupState (registerArrivals m agents t).states vid = some st :=
    register_lookup_some m agents t vid st h
  by_cases hany : agents.any (fun a => a.id = vid)
  · have h2 : lookupState (evictMissing (registerArrivals m agents t) agents).states vid
        = some st := by
      rw [evict_lookup, if_pos hany]
      exact h1
    obtain ⟨st3, h3, hev3⟩ := clearStep_ev _ agents t (staleDist agents) vid st h2
    obtain ⟨st4, h4, hev4⟩ := assign_ev _ t vid st3 h3
    rw [h'] at h4
    exact (Option.some.inj h4) ▸ stEv_trans hev3 hev4
  · have h2 : lookupState (evictMissing (registerArrivals m agents t) agents).states vid
        = none := by
      rw [evict_lookup, if_neg hany]
    have h3 : lookupState (clearStep (evictMissing (registerArrivals m agents t) agents)
        agents t (staleDist agents)).states vid = none := by
      rw [lookup_eq_none_iff, clearStep_keys]
      rw [lookup_eq_none_iff] at h2
      exact h2
    have h4 : lookupState (assignPermissions
        (clearStep (evictMissing (registerArrivals m agents t) agents) agents t
          (staleDist agents)) t).states vid = none := by
      rw [lookup_eq_none_iff, assign_keys]
      rw [lookup_eq_none_iff] at h3
      exact h3
    rw [h'] at h4
    cases h4

theorem MgrInv_mk (cx cy r b : ℚ) (M : Int) : MgrInv (mkManager cx cy r b M) := by
  refine ⟨?_, ⟨?_, ?_⟩, ⟨?_, ?_⟩, ?_⟩
  · show (([] : List (Nat × VehicleState)).map Prod.fst).Nodup
    simp
  · exact List.nodup_nil
  · intro vid hvid
    cases hvid
  · show ((0 : Nat) : Int) ≤ max 1 M
    have : (1 : Int) ≤ max 1 M := le_max_left 1 M
    omega
  · exact le_max_left 1 M
  · intro p hp
    cases hp

theorem timesOK_mk (cx cy r b : ℚ) (M : Int) (T : ℚ) :
    timesOK (mkManager cx cy r b M) T := by
  intro p hp
  cases hp

theorem applyOp_MgrInv (m : Manager) (o : Op) (h : MgrInv m) : MgrInv (applyOp m o) := by
  cases o with
  | upd agents t => exact update_MgrInv m agents t h
  | poll => exact poll_MgrInv m h
  | perms => exact h

theorem run_MgrInv (m : Manager) (ops : List Op) (h : MgrInv m) : MgrInv (run m ops) := by
  induction ops generalizing m with
  | nil => exact h
  | cons o rest ih => exact ih _ (applyOp_MgrInv m o h)

theorem applyOp_max (m : Manager) (o : Op) : (applyOp m o).max_active = m.max_active := by
  cases o with
  | upd agents t => exact update_max m agents t
  | poll => rfl
  | perms => rfl

theorem run_max (m : Manager) (ops : List Op) : (run m ops).max_active = m.max_active := by
  induction ops generalizing m with
  | nil => rfl
  | cons o rest ih =>
      show (run (applyOp m o) rest).max_active = _
      rw [ih, applyOp_max]

theorem applyOp_ev (m : Manager) (o : Op) (vid : Nat) (st st' : VehicleState)
    (h : lookupState m.states vid = some st)
    (h' : lookupState (applyOp m o).states vid = some st') : stEv st st' := by
  cases o with
  | upd agents t => exact update_ev m agents t vid st st' h h'
  | poll =>
      obtain ⟨st2, h2, hev⟩ := poll_ev m vid st h
      have h'' : lookupState (pollCompleted m).2.states vid = some st' := h'
      rw [h''] at h2
      exact (Option.some.inj h2) ▸ hev
  | perms =>
      have h'' : lookupState m.states vid = some st' := h'
      rw [h''] at h
      exact (Option.some.inj h) ▸ stEv_refl st

/-- The timestamps carried by a list of calls are non-decreasing, starting
from lower bound `T`. -/
def opsMonoB (T : ℚ) : List Op → Bool
  | [] => true
  | (Op.upd _ t) :: rest => (decide (T ≤ t)) && opsMonoB t rest
  | _ :: rest => opsMonoB T rest

/-- The timestamp of the last `update` call of the list (or `T` if none). -/
def lastTime (T : ℚ) : List Op → ℚ
  | [] => T
  | (Op.upd _ t) :: rest => lastTime t rest
  | _ :: rest => lastTime T rest

theorem run_timed (ops : List Op) (m : Manager) (T : ℚ) (hInv : MgrInv m)
    (hT : timesOK m T) (hmono : opsMonoB T ops = true) :
    MgrInv (run m ops) ∧ timesOK (run m ops) (lastTime T ops) := by
  induction ops generalizing m T with
  | nil => exact ⟨hInv, hT⟩
  | cons o rest ih =>
      cases o with
      | upd agents t =>
          have hmono' : ((decide (T ≤ t)) && opsMonoB t rest) = true := hmono
          simp only [Bool.and_eq_true, decide_eq_true_eq] at hmono'
          have hu := update_timed m agents t T hInv hT hmono'.1
          exact ih _ _ hu.1 hu.2 hmono'.2
      | poll => exact ih _ _ (poll_MgrInv m hInv) (poll_timesOK m T hT) hmono
      | perms => exact ih _ _ hInv hT hmono

/-!  Further derived notions used by the verification statements. -/

/-- Comparison of optional timestamps: trivially true unless both are set. -/
def optLE : Option ℚ → Option ℚ → Bool
  | some a, some b => a ≤ b
  | _, _ => true

/-- The ids admitted by one permission-assignment phase: the front of the
sorted waiting list, up to the free capacity of the active set. -/
def newlyAdmitted (m : Manager) : List Nat :=
  ((sortedWaiting m).map Prod.fst).take
    ((m.max_active - (m.active_ids.length : Int)).toNat)

/-- The record keyed `vid` survives (is present after) every call of the
list, starting from `m`. -/
def persistsB (m : Manager) (vid : Nat) : List Op → Bool
  | [] => true
  | o :: rest =>
      (lookupState (applyOp m o).states vid).isSome && persistsB (applyOp m o) vid rest

theorem run_ev_persist (ops : List Op) (m : Manager) (vid : Nat) (st : VehicleState)
    (h : lookupState m.states vid = some st) (hp : persistsB m vid ops = true) :
    ∃ st', lookupState (run m ops).states vid = some st' ∧ stEv st st' := by
  induction ops generalizing m st with
  | nil => exact ⟨st, h, stEv_refl st⟩
  | cons o rest ih =>
      have hp' : ((lookupState (applyOp m o).states vid).isSome &&
          persistsB (applyOp m o) vid rest) = true := hp
      simp only [Bool.and_eq_true] at hp'
      obtain ⟨st1, hst1⟩ := Option.isSome_iff_exists.mp hp'.1
      have hev1 : stEv st st1 := applyOp_ev m o vid st st1 h hst1
      obtain ⟨st2, hst2, hev2⟩ := ih _ st1 hst1 hp'.2
      exact ⟨st2, hst2, stEv_trans hev1 hev2⟩

theorem run_append (m : Manager) (ops : List Op) (o : Op) :
    run m (ops ++ [o]) = applyOp (run m ops) o := by
  unfold run
  rw [List.foldl_append]
  rfl

theorem mem_keys_of_lookup {s : List (Nat × VehicleState)} {vid : Nat}
    {st : VehicleState} (h : lookupState s vid = some st) : vid ∈ s.map Prod.fst := by
  by_contra hk
  rw [← lookup_eq_none_iff] at hk
  rw [h] at hk
  cases hk

theorem insertByArrival_pairwise (x : Nat × ℚ) (l : List (Nat × ℚ))
    (h : l.Pairwise (fun a b => a.2 ≤ b.2)) :
    (insertByArrival x l).Pairwise (fun a b => a.2 ≤ b.2) := by
  induction l with
  | nil => simp [insertByArrival]
  | cons y ys ih =>
      rw [insertByArrival]
      rw [List.pairwise_cons] at h
      split
      · next hxy =>
          rw [List.pairwise_cons]
          refine ⟨?_, List.pairwise_cons.mpr h⟩
          intro z hz
          rcases List.mem_cons.mp hz with hzy | hzys
          · exact hzy ▸ hxy
          · exact hxy.trans (h.1 z hzys)
      · next hxy =>
          rw [List.pairwise_cons]
          refine ⟨?_, ih h.2⟩
          intro z hz
          have hz2 : z ∈ x :: ys := (insertByArrival_perm x ys).mem_iff.mp hz
          rcases List.mem_cons.mp hz2 with hzx | hzys
          · rw [hzx]
            exact le_of_not_le hxy
          · exact h.1 z hzys

theorem sortByArrival_pairwise (l : List (Nat × ℚ)) :
    (sortByArrival l).Pairwise (fun a b => a.2 ≤ b.2) := by
  induction l with
  | nil => exact List.Pairwise.nil
  | cons x xs ih => exact insertByArrival_pairwise x _ ih

/-!  The verified claims. -/

def c1snap0 : List Agent := [⟨1,0,0,0⟩, ⟨9,24,0,24⟩]
def c1snap1 : List Agent := [⟨1,10,0,10⟩, ⟨9,24,0,24⟩]
def c1pre : Manager := update (mkManager 0 0 25 8 1) c1snap0 0
def c1post : Manager := update c1pre c1snap1 1

/-- C1: the clearing condition of `update` is claimed to use the distance of
the agent being updated.  It does not: the `dist` read in the clearing loop
is the stale value from the registration loop, i.e. the distance of the LAST
agent of the snapshot.  Concretely: agent 1 was in the box at tick 0, at
tick 1 it sits outside the box at distance 10 ≤ 0.75·25 from the center (so
by the claimed rule it must not clear), yet because the last snapshot agent
(id 9) is at distance 24 > 0.75·25, the code marks agent 1 cleared. -/
theorem C1_clearance_uses_stale_distance :
    (lookupState c1pre.states 1).map (fun st => (st.in_box, st.cleared)) =
        some (true, false) ∧
    c1pre.approach_radius = 25 ∧
    isInBox c1pre 10 0 = false ∧
    ((10 : ℚ) ≤ 25 * (3/4)) ∧
    (lookupState c1post.states 1).map (fun st => (st.cleared, st.exit_time)) =
        some (true, some 1) := by
  refine ⟨?_, ?_, ?_, by norm_num, ?_⟩
  · with_unfolding_all rfl
  · with_unfolding_all rfl
  · with_unfolding_all rfl
  · with_unfolding_all rfl

def c2s1 : Manager := update (mkManager 0 0 25 8 1) [⟨1,0,0,0⟩] 0
def c2s2 : Manager := update c2s1 [⟨1,37/2,0,37/2⟩] 1
def c2s3 : Manager := update c2s2 [⟨1,37/2,0,37/2⟩, ⟨9,19,0,19⟩] 2

/-- C2: the spec claims the hysteresis guarantees that an agent which, after
leaving the box, keeps its own distance at 18.5 = 0.74·25 ≤ 0.75·25 at every
checked tick is never marked cleared.  The code violates this: alone in the
snapshot the agent indeed stays uncleared (tick 1), but as soon as another
snapshot agent at distance 19 = 0.76·25 appears behind it (tick 2), the stale
`dist` of that last agent is compared against 0.75·R and agent 1 is cleared,
even though its own distance never exceeded 0.75·R at any checked tick. -/
theorem C2_hysteresis_defeated_by_stale_distance :
    (lookupState c2s1.states 1).map (fun st => st.in_box) = some true ∧
    isInBox c2s1 (37/2) 0 = false ∧
    ((37/2 : ℚ) ≤ 25 * (3/4)) ∧
    (lookupState c2s2.states 1).map (fun st => st.cleared) = some false ∧
    (lookupState c2s3.states 1).map (fun st => st.cleared) = some true := by
  refine ⟨?_, ?_, by norm_num, ?_, ?_⟩
  · with_unfolding_all rfl
  · with_unfolding_all rfl
  · with_unfolding_all rfl
  · with_unfolding_all rfl

/-- C5: at every reachable state — any sequence of `update`, `poll_completed`
and `current_permissions` calls after construction with limit `M` — the
active set holds at most `max 1 M` ids; in particular with `M = 1` its size
never exceeds 1. -/
theorem C5_active_set_bounded (cx cy r b : ℚ) (M : Int) (ops : List Op) :
    ((run (mkManager cx cy r b M) ops).active_ids.length : Int) ≤ max 1 M ∧
    ∀ (cx2 cy2 r2 b2 : ℚ) (ops2 : List Op),
      (run (mkManager cx2 cy2 r2 b2 1) ops2).active_ids.length ≤ 1 := by
  constructor
  · have hInv := run_MgrInv (mkManager cx cy r b M) ops (MgrInv_mk cx cy r b M)
    have hlen := hInv.2.2.1.1
    rw [run_max] at hlen
    simpa [mkManager] using hlen
  · intro cx2 cy2 r2 b2 ops2
    have hInv := run_MgrInv (mkManager cx2 cy2 r2 b2 1) ops2 (MgrInv_mk cx2 cy2 r2 b2 1)
    have hlen := hInv.2.2.1.1
    rw [run_max] at hlen
    have h2 : ((run (mkManager cx2 cy2 r2 b2 1) ops2).active_ids.length : Int) ≤ 1 := by
      simpa [mkManager] using hlen
    omega

/-- C9: construction is total for every integer concurrency limit; a limit
below 1 is silently clamped to 1, any other limit is stored unchanged. -/
theorem C9_constructor_clamps_limit (cx cy r b : ℚ) (M : Int) :
    (M < 1 → (mkManager cx cy r b M).max_active = 1) ∧
    (1 ≤ M → (mkManager cx cy r b M).max_active = M) := by
  constructor <;> intro h <;> simp [mkManager] <;> omega

theorem C9_constructor_clamps_limit_witness :
    (mkManager 0 0 25 8 (-5)).max_active = 1 ∧ (mkManager 0 0 25 8 3).max_active = 3 :=
  ⟨(C9_constructor_clamps_limit 0 0 25 8 (-5)).1 (by decide),
   (C9_constructor_clamps_limit 0 0 25 8 3).2 (by decide)⟩

def c3ops : List Op :=
  [Op.upd [⟨1,10,0,10⟩, ⟨2,20,0,20⟩] 0,
   Op.upd [⟨1,10,0,10⟩, ⟨2,5,0,5⟩] 1,
   Op.upd [⟨2,5,0,5⟩] 2]

/-- C3 (counterexample): under monotone timestamps, the chain
`permissionTime ≤ enterTime` claimed by the spec is refuted.  Agent 2
registers at t=0 while agent 1 holds the single permission slot, drives into
the box at t=1 (enterTime = 1) without permission, and is admitted at t=2
after agent 1 disappears (permissionTime = 2 > 1 = enterTime). -/
theorem C3_perm_after_enter_counterexample :
    opsMonoB 0 c3ops = true ∧
    (lookupState (run (mkManager 0 0 25 8 1) c3ops).states 2).map
        (fun st => (st.permission_time, st.enter_time)) = some (some 2, some 1) ∧
    ¬ ((2 : ℚ) ≤ (1 : ℚ)) := by
  refine ⟨by with_unfolding_all rfl, by with_unfolding_all rfl, by norm_num⟩

/-- C3 (amended): for every run of calls with monotonically non-decreasing
update timestamps, every tracked record satisfies
`arrivalTime ≤ permissionTime`, `arrivalTime ≤ enterTime`,
`enterTime ≤ exitTime` and `permissionTime ≤ exitTime` whenever the fields
involved are set.  The spec's further link `permissionTime ≤ enterTime` does
not hold in general (an agent can enter the box before being granted
permission), see the counterexample. -/
theorem C3_timestamp_orderings_amended (cx cy r b : ℚ) (M : Int) (T0 : ℚ)
    (ops : List Op) (vid : Nat) (st : VehicleState)
    (hmono : opsMonoB T0 ops = true)
    (hst : lookupState (run (mkManager cx cy r b M) ops).states vid = some st) :
    optLE (some st.arrival_time) st.permission_time = true ∧
    optLE (some st.arrival_time) st.enter_time = true ∧
    optLE st.enter_time st.exit_time = true ∧
    optLE st.permission_time st.exit_time = true := by
  have hrt := run_timed ops (mkManager cx cy r b M) T0 (MgrInv_mk cx cy r b M)
    (timesOK_mk cx cy r b M T0) hmono
  have hT := hrt.2 _ (lookup_mem hst)
  obtain ⟨h1, h2, h3, h4⟩ := hT
  refine ⟨?_, ?_, ?_, ?_⟩
  · cases hp : st.permission_time with
    | none => rfl
    | some p => simpa [optLE] using (h2 p hp).1
  · cases he : st.enter_time with
    | none => rfl
    | some e => simpa [optLE] using (h3 e he).1
  · cases he : st.enter_time with
    | none => cases hx : st.exit_time <;> rfl
    | some e =>
        cases hx : st.exit_time with
        | none => rfl
        | some x => simpa [optLE] using (h4 x hx).2.1 e he
  · cases hp : st.permission_time with
    | none => cases hx : st.exit_time <;> rfl
    | some p =>
        cases hx : st.exit_time with
        | none => rfl
        | some x => simpa [optLE] using (h4 x hx).2.2 p hp

theorem C3_timestamp_orderings_amended_witness :
    optLE (some (0:ℚ)) (some (2:ℚ)) = true ∧
    optLE (some (0:ℚ)) (some (1:ℚ)) = true ∧
    optLE (some (1:ℚ)) (none : Option ℚ) = true ∧
    optLE (some (2:ℚ)) (none : Option ℚ) = true :=
  C3_timestamp_orderings_amended 0 0 25 8 1 0 c3ops 2
    { vehicle_id := 2, arrival_time := 0, in_box := true, cleared := false,
      permission_time := some 2, enter_time := some 1, exit_time := none,
      exported := false }
    (by with_unfolding_all rfl) (by with_unfolding_all rfl)

/-- C10: every record returned by `poll_completed` at any reachable state has
`enter_time` set and `in_box = true`: clearance implies prior containment,
and the containment transition always records an entry time, so no record
reaches `cleared = true` with `enter_time` unset. -/
theorem C10_completed_records_entered (cx cy r b : ℚ) (M : Int) (ops : List Op) :
    ∀ st ∈ (pollCompleted (run (mkManager cx cy r b M) ops)).1,
      st.enter_time.isSome = true ∧ st.in_box = true := by
  intro st hst
  have hInv := run_MgrInv (mkManager cx cy r b M) ops (MgrInv_mk cx cy r b M)
  have hpred := poll_fst_pred _ st hst
  obtain ⟨vid, hmem⟩ := poll_fst_mem _ st hst
  have hstr : stStruct st := hInv.2.2.2 (vid, st) hmem
  have hbox : st.in_box = true := hstr.2.1 hpred.1
  exact ⟨hstr.1 hbox, hbox⟩

def c10m : Manager :=
  run (mkManager 0 0 25 8 1) [Op.upd [⟨1,0,0,0⟩] 0, Op.upd [⟨1,20,0,20⟩] 1]

theorem C10_completed_records_entered_witness :
    ({ vehicle_id := 1, arrival_time := 0, in_box := true, cleared := true,
       permission_time := some 0, enter_time := some 0, exit_time := some 1,
       exported := false } : VehicleState).enter_time.isSome = true ∧
    ({ vehicle_id := 1, arrival_time := 0, in_box := true, cleared := true,
       permission_time := some 0, enter_time := some 0, exit_time := some 1,
       exported := false } : VehicleState).in_box = true :=
  C10_completed_records_entered 0 0 25 8 1
    [Op.upd [⟨1,0,0,0⟩] 0, Op.upd [⟨1,20,0,20⟩] 1] _
    (by with_unfolding_all decide)

theorem assign_active (m : Manager) (t : ℚ) :
    (assignPermissions m t).active_ids = m.active_ids ++ newlyAdmitted m :=
  admitLoop_active _ _ _

/-- C8: at every reachable state the active set has no duplicates and each of
its members is a tracked, non-cleared record; and once a record is cleared,
after any further call it is still cleared (while it exists) and its id is
not in the active set — a cleared agent never re-enters the active set. -/
theorem C8_active_set_integrity :
    (∀ (cx cy r b : ℚ) (M : Int) (ops : List Op),
      (run (mkManager cx cy r b M) ops).active_ids.Nodup ∧
      ∀ vid ∈ (run (mkManager cx cy r b M) ops).active_ids,
        ∃ st, lookupState (run (mkManager cx cy r b M) ops).states vid = some st ∧
          st.cleared = false) ∧
    (∀ (cx cy r b : ℚ) (M : Int) (ops : List Op) (o : Op) (vid : Nat)
        (st st' : VehicleState),
      lookupState (run (mkManager cx cy r b M) ops).states vid = some st →
      st.cleared = true →
      lookupState (applyOp (run (mkManager cx cy r b M) ops) o).states vid = some st' →
      st'.cleared = true ∧
        vid ∉ (applyOp (run (mkManager cx cy r b M) ops) o).active_ids) := by
  constructor
  · intro cx cy r b M ops
    have hInv := run_MgrInv (mkManager cx cy r b M) ops (MgrInv_mk cx cy r b M)
    exact ⟨hInv.2.1.1, hInv.2.1.2⟩
  · intro cx cy r b M ops o vid st st' hst hcl hst'
    have hev := applyOp_ev (run (mkManager cx cy r b M) ops) o vid st st' hst hst'
    have hcl' : st'.cleared = true := hev.2.2.2.1 hcl
    refine ⟨hcl', ?_⟩
    intro hmem
    have hInv : MgrInv (applyOp (run (mkManager cx cy r b M) ops) o) :=
      applyOp_MgrInv _ o (run_MgrInv _ ops (MgrInv_mk cx cy r b M))
    obtain ⟨st0, hst0, hcl0⟩ := hInv.2.1.2 vid hmem
    rw [hst'] at hst0
    have heq := Option.some.inj hst0
    rw [← heq] at hcl0
    rw [hcl'] at hcl0
    exact Bool.noConfusion hcl0

theorem C8_active_set_integrity_witness :
    ({ vehicle_id := 1, arrival_time := 0, in_box := true, cleared := true,
       permission_time := some 0, enter_time := some 0, exit_time := some 1,
       exported := false } : VehicleState).cleared = true ∧
    1 ∉ (applyOp (run (mkManager 0 0 25 8 1)
          [Op.upd [⟨1,0,0,0⟩] 0, Op.upd [⟨1,20,0,20⟩] 1])
        (Op.upd [⟨1,20,0,20⟩] 2)).active_ids :=
  (C8_active_set_integrity.2 0 0 25 8 1
    [Op.upd [⟨1,0,0,0⟩] 0, Op.upd [⟨1,20,0,20⟩] 1]
    (Op.upd [⟨1,20,0,20⟩] 2) 1 _ _
    (by with_unfolding_all rfl) rfl (by with_unfolding_all rfl))

def c7ops : List Op :=
  [Op.upd [⟨3,10,0,10⟩] 0,
   Op.upd [⟨3,10,0,10⟩, ⟨1,12,0,12⟩] 1,
   Op.upd [⟨3,10,0,10⟩, ⟨1,12,0,12⟩, ⟨2,14,0,14⟩] 2,
   Op.upd [⟨1,12,0,12⟩, ⟨2,14,0,14⟩] 3]

/-- C7: within one `update` call, disappearance eviction runs before
permission assignment: an active id absent from the snapshot is out of the
active set and out of tracking after the call (it cannot be re-admitted in
that same call), and concretely the slot freed by the disappearance of the
active agent 3 is filled in the same call by the next-oldest waiting agent
(agent 1, which arrived before agent 2). -/
theorem C7_eviction_frees_slot_same_tick :
    (∀ (m : Manager) (agents : List Agent) (t : ℚ) (vid : Nat), MgrInv m →
      vid ∈ m.active_ids → agents.all (fun a => a.id ≠ vid) = true →
      vid ∉ (update m agents t).active_ids ∧
      lookupState (update m agents t).states vid = none) ∧
    (run (mkManager 0 0 25 8 1) c7ops).active_ids = [1] := by
  constructor
  · intro m agents t vid hInv hact habs
    obtain ⟨st0, hst0, _⟩ := hInv.2.1.2 vid hact
    have hnotany : ¬ agents.any (fun a => a.id = vid) = true := by
      intro hc
      obtain ⟨a, ha, hav⟩ := List.any_eq_true.mp hc
      have hall := List.all_eq_true.mp habs a ha
      simp only [decide_eq_true_eq] at hav
      simp only [decide_eq_true_eq] at hall
      exact hall hav
    have hst1 : lookupState (registerArrivals m agents t).states vid = some st0 :=
      register_lookup_some m agents t vid st0 hst0
    have hkeys1 : vid ∈ (registerArrivals m agents t).states.map Prod.fst :=
      mem_keys_of_lookup hst1
    have hdead : vid ∈ deadIds (registerArrivals m agents t) agents :=
      List.mem_filter.mpr ⟨hkeys1, by simpa using hnotany⟩
    have hnd1 : (registerArrivals m agents t).active_ids.Nodup := by
      rw [register_active]
      exact hInv.2.1.1
    have hlook2 : lookupState
        (evictMissing (registerArrivals m agents t) agents).states vid = none := by
      rw [evict_lookup, if_neg hnotany]
    have hact2 : vid ∉ (evictMissing (registerArrivals m agents t) agents).active_ids := by
      rw [evict_active _ _ hnd1]
      intro hc
      have := (List.mem_filter.mp hc).2
      simp only [decide_eq_true_eq] at this
      exact this hdead
    have hlook3 : lookupState
        (clearStep (evictMissing (registerArrivals m agents t) agents) agents t
          (staleDist agents)).states vid = none := by
      rw [lookup_eq_none_iff, clearStep_keys]
      rw [lookup_eq_none_iff] at hlook2
      exact hlook2
    have hact3 : vid ∉ (clearStep (evictMissing (registerArrivals m agents t) agents)
        agents t (staleDist agents)).active_ids :=
      fun hc => hact2 (clearStep_active_sub _ _ _ _ vid hc)
    constructor
    · rw [update_eq, assign_active]
      intro hc
      rcases List.mem_append.mp hc with hin | hin
      · exact hact3 hin
      · have hvid2 : vid ∈ (sortedWaiting (clearStep
            (evictMissing (registerArrivals m agents t) agents) agents t
              (staleDist agents))).map Prod.fst :=
          (List.take_sublist _ _).subset hin
        obtain ⟨q, hq, hq1⟩ := List.mem_map.mp hvid2
        have hq2 := (sortedWaiting_perm _).mem_iff.mp hq
        obtain ⟨p, hp, hpq⟩ := List.mem_map.mp hq2
        have hpk : vid ∈ (clearStep (evictMissing (registerArrivals m agents t) agents)
            agents t (staleDist agents)).states.map Prod.fst := by
          refine List.mem_map.mpr ⟨p, List.mem_of_mem_filter hp, ?_⟩
          rw [← hq1, ← hpq]
        rw [lookup_eq_none_iff] at hlook3
        exact hlook3 hpk
    · rw [update_eq, lookup_eq_none_iff, assign_keys]
      rw [lookup_eq_none_iff] at hlook3
      exact hlook3
  · with_unfolding_all rfl

theorem C7_eviction_frees_slot_same_tick_witness :
    3 ∉ (update (run (mkManager 0 0 25 8 1) (c7ops.take 3))
        [⟨1,12,0,12⟩, ⟨2,14,0,14⟩] 3).active_ids ∧
    lookupState (update (run (mkManager 0 0 25 8 1) (c7ops.take 3))
        [⟨1,12,0,12⟩, ⟨2,14,0,14⟩] 3).states 3 = none :=
  C7_eviction_frees_slot_same_tick.1
    (run (mkManager 0 0 25 8 1) (c7ops.take 3)) [⟨1,12,0,12⟩, ⟨2,14,0,14⟩] 3 3
    (run_MgrInv (mkManager 0 0 25 8 1) (c7ops.take 3) (MgrInv_mk 0 0 25 8 1))
    (by with_unfolding_all decide) (by with_unfolding_all rfl)

def c6m : Manager :=
  (pollCompleted (run (mkManager 0 0 25 8 1)
    [Op.upd [⟨1,0,0,0⟩] 0, Op.upd [⟨1,20,0,20⟩] 1])).2

def c6ops : List Op := [Op.upd [⟨1,20,0,20⟩] 2, Op.poll]

/-- C6: `poll_completed` returns exactly the tracked records with
`cleared ∧ ¬exported`, marks each returned record exported, an immediately
repeated call returns the empty list, and while a record persists, once it is
exported it stays exported and is never returned by any later call. -/
theorem C6_poll_drains_exactly_once :
    (∀ (m : Manager) (st : VehicleState),
      st ∈ (pollCompleted m).1 ↔
        (∃ vid, (vid, st) ∈ m.states) ∧ st.cleared = true ∧ st.exported = false) ∧
    (∀ (m : Manager) (vid : Nat) (st : VehicleState),
      lookupState m.states vid = some st →
      lookupState (pollCompleted m).2.states vid =
        some (if st.cleared && !st.exported then { st with exported := true } else st)) ∧
    (∀ m : Manager, (pollCompleted (pollCompleted m).2).1 = []) ∧
    (∀ (m : Manager) (ops : List Op) (vid : Nat) (st st' : VehicleState),
      lookupState m.states vid = some st → st.exported = true →
      persistsB m vid ops = true →
      lookupState (run m ops).states vid = some st' →
      st'.exported = true ∧ st' ∉ (pollCompleted (run m ops)).1) := by
  refine ⟨?_, ?_, ?_, ?_⟩
  · intro m st
    constructor
    · intro hst
      have hpred := poll_fst_pred m st hst
      obtain ⟨vid, hmem⟩ := poll_fst_mem m st hst
      exact ⟨⟨vid, hmem⟩, hpred⟩
    · rintro ⟨⟨vid, hmem⟩, hcl, hexp⟩
      show st ∈ (m.states.filter _).map Prod.snd
      refine List.mem_map.mpr ⟨(vid, st), List.mem_filter.mpr ⟨hmem, ?_⟩, rfl⟩
      simp [hcl, hexp]
  · intro m vid st h
    rw [poll_lookup, h]
    rfl
  · exact poll_poll_empty
  · intro m ops vid st st' hst hexp hper hst'
    obtain ⟨st2, hst2, hev⟩ := run_ev_persist ops m vid st hst hper
    rw [hst'] at hst2
    have heq := Option.some.inj hst2
    subst heq
    have hexp' : st'.exported = true := hev.2.2.2.2.2.2.2 hexp
    refine ⟨hexp', ?_⟩
    intro hmem
    have := (poll_fst_pred _ st' hmem).2
    rw [hexp'] at this
    exact Bool.noConfusion this

theorem C6_poll_drains_exactly_once_witness :
    ({ vehicle_id := 1, arrival_time := 0, in_box := true, cleared := true,
       permission_time := some 0, enter_time := some 0, exit_time := some 1,
       exported := true } : VehicleState).exported = true ∧
    ({ vehicle_id := 1, arrival_time := 0, in_box := true, cleared := true,
       permission_time := some 0, enter_time := some 0, exit_time := some 1,
       exported := true } : VehicleState) ∉ (pollCompleted (run c6m c6ops)).1 :=
  C6_poll_drains_exactly_once.2.2.2 c6m c6ops 1
    { vehicle_id := 1, arrival_time := 0, in_box := true, cleared := true,
      permission_time := some 0, enter_time := some 0, exit_time := some 1,
      exported := true }
    { vehicle_id := 1, arrival_time := 0, in_box := true, cleared := true,
      permission_time := some 0, enter_time := some 0, exit_time := some 1,
      exported := true }
    (by with_unfolding_all rfl) rfl (by with_unfolding_all rfl)
    (by with_unfolding_all rfl)

def c4run1 : Manager := run (mkManager 0 0 25 8 1)
  [Op.upd [⟨3,10,0,10⟩] 0, Op.upd [⟨3,10,0,10⟩, ⟨1,12,0,12⟩] 10,
   Op.upd [⟨3,10,0,10⟩, ⟨1,12,0,12⟩, ⟨2,14,0,14⟩] 12,
   Op.upd [⟨1,12,0,12⟩, ⟨2,14,0,14⟩] 13]

def c4run2 : Manager := run (mkManager 0 0 25 8 1)
  [Op.upd [⟨3,10,0,10⟩] 0, Op.upd [⟨1,12,0,12⟩, ⟨3,10,0,10⟩] 10,
   Op.upd [⟨2,14,0,14⟩, ⟨1,12,0,12⟩, ⟨3,10,0,10⟩] 12,
   Op.upd [⟨2,14,0,14⟩, ⟨1,12,0,12⟩] 13]

def c4tie1 : Manager :=
  run (mkManager 0 0 25 8 1) [Op.upd [⟨1,20,0,20⟩, ⟨2,24,0,24⟩] 0]

def c4tie2 : Manager :=
  run (mkManager 0 0 25 8 1) [Op.upd [⟨2,24,0,24⟩, ⟨1,20,0,20⟩] 0]

def c4wm : Manager :=
  { centerX := 0, centerY := 0, approach_radius := 25, box_half_extent := 8,
    states := [(4, VehicleState.mkNew 4 3), (5, VehicleState.mkNew 5 7)],
    active_ids := [], max_active := 2 }

/-- C4: the permission phase appends to the active set exactly the front of
the waiting list — all tracked, non-cleared, non-active ids sorted by arrival
time ascending with ties in insertion order (stable sort) — up to capacity
`M`, and stamps `permission_time := timestamp` on each newly admitted id whose
permission time was unset.  Concretely: with `M = 1` and waiting agents A
(id 1, arrival 10) and B (id 2, arrival 12), A is admitted first regardless
of snapshot order; with equal arrivals the earlier-inserted id wins. -/
theorem C4_fcfs_admission :
    (∀ (m : Manager) (t : ℚ),
      (assignPermissions m t).active_ids = m.active_ids ++ newlyAdmitted m) ∧
    (∀ m : Manager, (sortedWaiting m).Pairwise (fun a b => a.2 ≤ b.2)) ∧
    (∀ (m : Manager) (t : ℚ) (vid : Nat) (st : VehicleState), keysOK m →
      vid ∈ newlyAdmitted m → lookupState m.states vid = some st →
      lookupState (assignPermissions m t).states vid =
        some (if st.permission_time = none
              then { st with permission_time := some t } else st)) ∧
    (c4run1.active_ids = [1] ∧ c4run2.active_ids = [1]) ∧
    (c4tie1.active_ids = [1] ∧ c4tie2.active_ids = [2]) := by
  refine ⟨fun m t => assign_active m t, fun m => sortByArrival_pairwise _, ?_, ?_, ?_⟩
  · intro m t vid st hkeys hmem hst
    exact admitLoop_lookup_mem (sortedWaiting m) m t (sortedWaiting_ids_nodup m hkeys)
      vid st hmem hst
  · exact ⟨by with_unfolding_all rfl, by with_unfolding_all rfl⟩
  · exact ⟨by with_unfolding_all rfl, by with_unfolding_all rfl⟩

theorem C4_fcfs_admission_witness :
    lookupState (assignPermissions c4wm 9).states 4 =
      some (if (VehicleState.mkNew 4 3).permission_time = none
            then { VehicleState.mkNew 4 3 with permission_time := some 9 }
            else VehicleState.mkNew 4 3) :=
  C4_fcfs_admission.2.2.1 c4wm 9 4 (VehicleState.mkNew 4 3)
    (by decide) (by with_unfolding_all decide) (by with_unfolding_all rfl)
